import Mathlib

/-!
Verification of the GalSim table-interpolation engine (`src/Table.cpp`).

Doubles are modelled as exact rationals (`ℚ`); the claims under study are
stated over exact arithmetic.  Mutable state (the `ArgVec` search cursor
`_lastIndex`) is threaded explicitly: each stateful operation takes the
cursor value and returns the new one.  The `while` loops of the
equal-spaced lookup path are embedded with explicit fuel (the enclosing
code passes fuel `n`); the totality claims prove the fuel is never
exhausted.  `std::upper_bound` / `std::lower_bound` are embedded by
functions satisfying their specified postcondition (first position in the
range where the element exceeds, resp. is not below, the query).
-/

namespace GalSim

/-- The `ArgVec` class: a view over `n` argument doubles.
    `vec i` is `_vec[i]`; indices `≥ n` are junk (never read by verified paths). -/
structure ArgVec where
  vec : ℕ → ℚ
  n : ℕ
namespace ArgVec

/-- `front()` -/
def front (v : ArgVec) : ℚ := v.vec 0

/-- `back()` -/
def back (v : ArgVec) : ℚ := v.vec (v.n - 1)

/-- `_da = (back() - front()) / (_n - 1)` (constructor, line 66). -/
def da (v : ArgVec) : ℚ := (v.back - v.front) / ((v.n : ℚ) - 1)

/-- `_equalSpaced`: set in the constructor (lines 67-70); starts `true` and is
    cleared when some sample deviates from its expected position by more than
    the tolerance `0.01`.  (The loop starts at `i = 1`; including `i = 0`
    is harmless since its deviation is `0`.) -/
def equalSpaced (v : ArgVec) : Bool :=
  (List.range v.n).all fun i => decide (|(v.vec i - v.vec 0) / v.da - (i : ℚ)| ≤ 1/100)

/-- `_lower_slop = (_vec[1]-_vec[0]) * 1.e-6` (set in the constructor;
    not read by `upperIndex` in this revision). -/
def lowerSlop (v : ArgVec) : ℚ := (v.vec 1 - v.vec 0) * (1/1000000)

/-- `_upper_slop = (_vec[_n-1]-_vec[_n-2]) * 1.e-6` (set in the constructor;
    not read by `upperIndex` in this revision). -/
def upperSlop (v : ArgVec) : ℚ := (v.vec (v.n - 1) - v.vec (v.n - 2)) * (1/1000000)

/-- Read `_vec` at a signed index (the equal-spaced path computes the index
    as a C `int`).  Negative indices are junk, never read on verified paths. -/
def getZ (v : ArgVec) (i : ℤ) : ℚ := v.vec i.toNat

/-- `while (a > _vec[i]) ++i;` (line 91), with explicit fuel. -/
def nudgeUp (v : ArgVec) (a : ℚ) : ℕ → ℤ → ℤ
  | 0, i => i
  | f+1, i => if v.getZ i < a then v.nudgeUp a f (i+1) else i

/-- `while (a < _vec[i-1]) --i;` (line 92), with explicit fuel. -/
def nudgeDown (v : ArgVec) (a : ℚ) : ℕ → ℤ → ℤ
  | 0, i => i
  | f+1, i => if a < v.getZ (i-1) then v.nudgeDown a f (i-1) else i

/-- Equal-spaced path, lines 86-89: `i = int(ceil((a-front())/_da))`,
    then `if (i >= _n) --i;` and `if (i == 0) ++i;`. -/
def preNudgeIndex (v : ArgVec) (a : ℚ) : ℤ :=
  let i0 : ℤ := ⌈(a - v.front) / v.da⌉
  let i1 : ℤ := if (v.n : ℤ) ≤ i0 then i0 - 1 else i0
  if i1 = 0 then i1 + 1 else i1

/-- The whole equal-spaced path of `upperIndex` (lines 83-94), after the
    range check.  Each nudge loop is given fuel `n`. -/
def eqSpacedIndex (v : ArgVec) (a : ℚ) : ℤ :=
  v.nudgeDown a v.n (v.nudgeUp a v.n (v.preNudgeIndex a))

/-- `std::upper_bound` on index range `[lo, hi)`: the first index whose
    element is `> a`, else `hi`.  Fuel-driven linear scan realising the
    STL postcondition; called with fuel `hi - lo`. -/
def upperBoundIdx (v : ArgVec) (a : ℚ) : ℕ → ℕ → ℕ → ℕ
  | 0, lo, _ => lo
  | f+1, lo, hi => if lo < hi then (if a < v.vec lo then lo else v.upperBoundIdx a f (lo+1) hi) else lo

/-- `std::lower_bound` on index range `[lo, hi)`: the first index whose
    element is not `< a`, else `hi`. -/
def lowerBoundIdx (v : ArgVec) (a : ℚ) : ℕ → ℕ → ℕ → ℕ
  | 0, lo, _ => lo
  | f+1, lo, hi => if lo < hi then (if v.vec lo < a then v.lowerBoundIdx a f (lo+1) hi else lo) else lo

/-- The non-uniform (cursor / binary-search) path of `upperIndex`
    (lines 95-137), after the range check.  Takes the current `_lastIndex`
    and returns `(result, new _lastIndex)`. -/
def cursorIndex (v : ArgVec) (last : ℕ) (a : ℚ) : ℕ × ℕ :=
  if a < v.vec (last - 1) then
    if v.vec (last - 2) ≤ a then (last - 1, last - 1)
    else
      let p := v.upperBoundIdx a (last - 1) 0 (last - 1)
      (p, p)
  else if v.vec last < a then
    if a ≤ v.vec (last + 1) then (last + 1, last + 1)
    else
      let p := v.lowerBoundIdx a (v.n - (last + 1)) (last + 1) v.n
      (p, p)
  else (last, last)

/-- `int ArgVec::upperIndex(double a) const` (lines 77-138), with the
    mutable `_lastIndex` threaded: returns `(index, new _lastIndex)`. -/
def upperIndex (v : ArgVec) (last : ℕ) (a : ℚ) : ℕ × ℕ :=
  if a < v.front then (1, last)
  else if v.back < a then (v.n - 1, last)
  else if v.equalSpaced then ((v.eqSpacedIndex a).toNat, last)
  else v.cursorIndex last a

/-- Strictly ascending arguments: the documented precondition on all tables. -/
def Ascending (v : ArgVec) : Prop := ∀ i < v.n - 1, v.vec i < v.vec (i+1)

/-- Invariant on the mutable cursor (`xassert`s at lines 98-99); holds for the
    initial value `_lastIndex = 1` and is preserved by every query. -/
def ValidCursor (v : ArgVec) (s : ℕ) : Prop := 1 ≤ s ∧ s ≤ v.n - 1

/-- `i` is a valid bracket index for query `a`: the contract of `upperIndex`. -/
def Bracket (v : ArgVec) (a : ℚ) (i : ℕ) : Prop :=
  1 ≤ i ∧ i ≤ v.n - 1 ∧ v.vec (i-1) ≤ a ∧ a ≤ v.vec i

instance (v : ArgVec) : Decidable v.Ascending :=
  decidable_of_iff (∀ i < v.n - 1, v.vec i < v.vec (i+1)) Iff.rfl

instance (v : ArgVec) (s : ℕ) : Decidable (v.ValidCursor s) :=
  inferInstanceAs (Decidable (_ ∧ _))

instance (v : ArgVec) (a : ℚ) (i : ℕ) : Decidable (v.Bracket a i) :=
  inferInstanceAs (Decidable (_ ∧ _))

end ArgVec

/-- `Table::interpolant` (the five 1D rules). -/
inductive Interpolant
  | linear
  | floor
  | ceil
  | nearest
  | spline
deriving DecidableEq

/-- `h_i` off-diagonals of the spline system: `args[i+1] - args[i]`. -/
def sE (args : ℕ → ℚ) (i : ℕ) : ℚ := args (i+1) - args i

/-- Diagonals of the spline system: `2 * (args[i+1] - args[i-1])`
    (`setupSpline`, line 231 / 250 / 257). -/
def sD (args : ℕ → ℚ) (i : ℕ) : ℚ := 2 * (args (i+1) - args (i-1))

/-- Right-hand side of the spline system (`setupSpline`, lines 232-233 / 247-248). -/
def sR (args vals : ℕ → ℚ) (i : ℕ) : ℚ :=
  6 * ((vals (i+1) - vals i) / (args (i+1) - args i) -
       (vals i - vals (i-1)) / (args i - args (i-1)))

/-- Pivots `bb` of the Thomas forward elimination (`setupSpline`, lines 250-258):
    `bb₁ = D 1`, `bb_{i+1} = D (i+1) - (E i)² / bb_i`. -/
def tBB (D E : ℕ → ℚ) : ℕ → ℚ
  | 0 => 1
  | 1 => D 1
  | (i+2) => D (i+2) - (E (i+1))^2 / tBB D E (i+1)

/-- Forward-eliminated right-hand side (`_y2[i] /= bb` and
    `_y2[i+1] -= a*_y2[i]`, lines 252 / 259). -/
def tG (D E R : ℕ → ℚ) : ℕ → ℚ
  | 0 => 0
  | 1 => R 1 / tBB D E 1
  | (i+2) => (R (i+2) - E (i+1) * tG D E R (i+1)) / tBB D E (i+2)

/-- Elimination multipliers `c[i-1] = a / bb` (lines 255-256). -/
def tC (D E : ℕ → ℚ) (i : ℕ) : ℚ := E i / tBB D E i

/-- Back substitution (`_y2[i] -= c[i-1]*_y2[i+1]`, lines 261-263):
    `z m = g m`, `z i = g i - c i * z (i+1)` going down from `i = m-1`. -/
def tZ (D E R : ℕ → ℚ) (m : ℕ) (i : ℕ) : ℚ :=
  if m ≤ i then tG D E R m
  else tG D E R i - tC D E i * tZ D E R m (i+1)
termination_by m - i
decreasing_by omega

/-- `TableImpl::setupSpline` (lines 196-268): the second-derivative table.
    Natural boundary `y2[0] = y2[n-1] = 0`; closed form for `n = 3`; the
    Thomas algorithm (the build used when the TMV library is absent) for the
    interior unknowns `y2[1..n-2]` otherwise (vacuous for `n = 2`). -/
def splineY2 (args vals : ℕ → ℚ) (n : ℕ) (i : ℕ) : ℚ :=
  if n = 3 then
    if i = 1 then
      3 * ((vals 2 - vals 1) / (args 2 - args 1) - (vals 1 - vals 0) / (args 1 - args 0)) /
        (args 2 - args 0)
    else 0
  else if 1 ≤ i ∧ i ≤ n - 2 then tZ (sD args) (sE args) (sR args vals) (n-2) i
  else 0

/-- `Table::TableImpl`: one argument axis, parallel value array, chosen rule. -/
structure Table where
  av : ArgVec
  vals : ℕ → ℚ
  ity : Interpolant

namespace Table

def args (t : Table) : ℕ → ℚ := t.av.vec

def n (t : Table) : ℕ := t.av.n

/-- `_y2`, computed by `setupSpline` (only read by the spline rule). -/
def y2 (t : Table) : ℕ → ℚ := splineY2 t.args t.vals t.n

/-- `argMin()` -/
def argMin (t : Table) : ℚ := t.av.front

/-- `argMax()` -/
def argMax (t : Table) : ℚ := t.av.back

/-- `TableImpl::linearInterpolate` (lines 281-286). -/
def linearInterpolate (t : Table) (a : ℚ) (i : ℕ) : ℚ :=
  let ax := (t.args i - a) / (t.args i - t.args (i-1))
  let bx := 1 - ax
  t.vals i * bx + t.vals (i-1) * ax

/-- The value index read by `floorInterpolate`: `_vals[i-1]` after the
    tie-break `if (a == _args[i]) i++` (lines 288-295). -/
def floorIdx (t : Table) (a : ℚ) (i : ℕ) : ℕ :=
  (if a = t.args i then i + 1 else i) - 1

/-- `TableImpl::floorInterpolate` (lines 288-295). -/
def floorInterpolate (t : Table) (a : ℚ) (i : ℕ) : ℚ := t.vals (t.floorIdx a i)

/-- The value index read by `ceilInterpolate`: `_vals[i]` after the
    tie-break `if (a == _args[i-1]) i--` (lines 297-301). -/
def ceilIdx (t : Table) (a : ℚ) (i : ℕ) : ℕ :=
  if a = t.args (i-1) then i - 1 else i

/-- `TableImpl::ceilInterpolate` (lines 297-301). -/
def ceilInterpolate (t : Table) (a : ℚ) (i : ℕ) : ℚ := t.vals (t.ceilIdx a i)

/-- The value index read by `nearestInterpolate`:
    `if ((a - _args[i-1]) < (_args[i] - a)) i--` (lines 303-307). -/
def nearestIdx (t : Table) (a : ℚ) (i : ℕ) : ℕ :=
  if a - t.args (i-1) < t.args i - a then i - 1 else i

/-- `TableImpl::nearestInterpolate` (lines 303-307). -/
def nearestInterpolate (t : Table) (a : ℚ) (i : ℕ) : ℚ := t.vals (t.nearestIdx a i)

/-- `TableImpl::splineInterpolate` (lines 309-330, the live `#else` branch). -/
def splineInterpolate (t : Table) (a : ℚ) (i : ℕ) : ℚ :=
  let h := t.args i - t.args (i-1)
  let aa := t.args i - a
  let bb := h - aa
  (aa * t.vals (i-1) + bb * t.vals i -
    (1/6) * aa * bb * ((aa + h) * t.y2 (i-1) + (bb + h) * t.y2 i)) / h

/-- The member-function-pointer dispatch set up in the constructor
    (lines 174-192). -/
def interpolate (t : Table) : ℚ → ℕ → ℚ :=
  match t.ity with
  | .linear => t.linearInterpolate
  | .floor => t.floorInterpolate
  | .ceil => t.ceilInterpolate
  | .nearest => t.nearestInterpolate
  | .spline => t.splineInterpolate

/-- `TableImpl::lookup` (lines 271-279), cursor threaded. -/
def lookup (t : Table) (last : ℕ) (a : ℚ) : ℚ × ℕ :=
  let r := t.av.upperIndex last a
  (t.interpolate a r.1, r.2)

/-- `Table::operator()` (lines 349-353): the range-checked public accessor.
    Returns 0 outside `[argMin, argMax]` without touching the cursor. -/
def callOp (t : Table) (last : ℕ) (a : ℚ) : ℚ × ℕ :=
  if a < t.argMin ∨ t.argMax < a then (0, last) else t.lookup last a


end Table


/-- `Table2D::interpolant` (the four 2D rules; `linear` is bilinear). -/
inductive Interpolant2D
  | floor
  | ceil
  | nearest
  | linear
deriving DecidableEq

/-- `Table2D` with a concrete strategy (`ConcreteTable2DImpl<T2DInterp>`):
    two argument axes, a row-major `Nx × Ny` value grid (`vals (i*ny + j)`
    is `_vals[i*_ny+j]`), and the rule fixed at construction. -/
structure Table2D where
  xav : ArgVec
  yav : ArgVec
  vals : ℕ → ℚ
  ity : Interpolant2D

namespace Table2D

/-- `_ny` -/
def ny (t : Table2D) : ℕ := t.yav.n

def nx (t : Table2D) : ℕ := t.xav.n

def xargs (t : Table2D) : ℕ → ℚ := t.xav.vec

def yargs (t : Table2D) : ℕ → ℚ := t.yav.vec

/-- `T2DLinearInterp::interp` (lines 437-450), cursors threaded:
    returns `(value, new x-cursor, new y-cursor)`. -/
def linearInterp (t : Table2D) (sx sy : ℕ) (x y : ℚ) : ℚ × ℕ × ℕ :=
  let ri := t.xav.upperIndex sx x
  let rj := t.yav.upperIndex sy y
  let i := ri.1
  let j := rj.1
  let ax := (t.xargs i - x) / (t.xargs i - t.xargs (i-1))
  let ay := (t.yargs j - y) / (t.yargs j - t.yargs (j-1))
  let bx := 1 - ax
  let cy := 1 - ay
  (t.vals ((i-1) * t.ny + (j-1)) * ax * ay
    + t.vals (i * t.ny + (j-1)) * bx * ay
    + t.vals ((i-1) * t.ny + j) * ax * cy
    + t.vals (i * t.ny + j) * bx * cy, ri.2, rj.2)

/-- The flat value index read by `T2DFloorInterp::interp` after the per-axis
    tie-breaks `if (x == _xargs[i]) i++` / `if (y == _yargs[j]) j++`
    (lines 475-484): `_vals[(i-1)*_ny+j-1]`. -/
def floorIdx2D (t : Table2D) (x y : ℚ) (i j : ℕ) : ℕ :=
  ((if x = t.xargs i then i + 1 else i) - 1) * t.ny +
    ((if y = t.yargs j then j + 1 else j) - 1)

/-- `T2DFloorInterp::interp` (lines 475-484). -/
def floorInterp (t : Table2D) (sx sy : ℕ) (x y : ℚ) : ℚ × ℕ × ℕ :=
  let ri := t.xav.upperIndex sx x
  let rj := t.yav.upperIndex sy y
  (t.vals (t.floorIdx2D x y ri.1 rj.1), ri.2, rj.2)

/-- The flat value index read by `T2DCeilInterp::interp` after the per-axis
    tie-breaks `if (x == _xargs[i-1]) i--` / `if (y == _yargs[j-1]) j--`
    (lines 496-502): `_vals[i*_ny+j]`. -/
def ceilIdx2D (t : Table2D) (x y : ℚ) (i j : ℕ) : ℕ :=
  (if x = t.xargs (i-1) then i - 1 else i) * t.ny +
    (if y = t.yargs (j-1) then j - 1 else j)

/-- `T2DCeilInterp::interp` (lines 496-502). -/
def ceilInterp (t : Table2D) (sx sy : ℕ) (x y : ℚ) : ℚ × ℕ × ℕ :=
  let ri := t.xav.upperIndex sx x
  let rj := t.yav.upperIndex sy y
  (t.vals (t.ceilIdx2D x y ri.1 rj.1), ri.2, rj.2)

/-- The flat value index read by `T2DNearestInterp::interp` after the
    per-axis nearest tie-breaks (lines 514-519): `_vals[i*_ny+j]`. -/
def nearestIdx2D (t : Table2D) (x y : ℚ) (i j : ℕ) : ℕ :=
  (if x - t.xargs (i-1) < t.xargs i - x then i - 1 else i) * t.ny +
    (if y - t.yargs (j-1) < t.yargs j - y then j - 1 else j)

/-- `T2DNearestInterp::interp` (lines 514-519). -/
def nearestInterp (t : Table2D) (sx sy : ℕ) (x y : ℚ) : ℚ × ℕ × ℕ :=
  let ri := t.xav.upperIndex sx x
  let rj := t.yav.upperIndex sy y
  (t.vals (t.nearestIdx2D x y ri.1 rj.1), ri.2, rj.2)

/-- `Table2D::lookup` through the strategy chosen by `makeImpl`
    (lines 533-561). -/
def lookup (t : Table2D) (sx sy : ℕ) (x y : ℚ) : ℚ × ℕ × ℕ :=
  match t.ity with
  | .floor => t.floorInterp sx sy x y
  | .ceil => t.ceilInterp sx sy x y
  | .nearest => t.nearestInterp sx sy x y
  | .linear => t.linearInterp sx sy x y

/-- `T2DLinearInterp::gradient` (lines 452-467), cursors threaded. -/
def linearGradient (t : Table2D) (sx sy : ℕ) (x y : ℚ) : (ℚ × ℚ) × ℕ × ℕ :=
  let ri := t.xav.upperIndex sx x
  let rj := t.yav.upperIndex sy y
  let i := ri.1
  let j := rj.1
  let dx := t.xargs i - t.xargs (i-1)
  let dy := t.yargs j - t.yargs (j-1)
  let f00 := t.vals ((i-1) * t.ny + (j-1))
  let f01 := t.vals ((i-1) * t.ny + j)
  let f10 := t.vals (i * t.ny + (j-1))
  let f11 := t.vals (i * t.ny + j)
  let ax := (t.xargs i - x) / (t.xargs i - t.xargs (i-1))
  let bx := 1 - ax
  let ay := (t.yargs j - y) / (t.yargs j - t.yargs (j-1))
  let cy := 1 - ay
  ((((f10 - f00) * ay + (f11 - f01) * cy) / dx,
    ((f01 - f00) * ax + (f11 - f10) * bx) / dy), ri.2, rj.2)

/-- `Table2D::gradient` (lines 568-570) through the strategy chosen by
    `makeImpl`: the floor/ceil/nearest strategies throw
    (`gradient not implemented for ... interp`, lines 486-488 / 504-506 /
    522-524), modelled as `Except.error` with the thrown message. -/
def gradient (t : Table2D) (sx sy : ℕ) (x y : ℚ) :
    Except String ((ℚ × ℚ) × ℕ × ℕ) :=
  match t.ity with
  | .floor => .error "gradient not implemented for floor interp"
  | .ceil => .error "gradient not implemented for ceil interp"
  | .nearest => .error "gradient not implemented for nearest interp"
  | .linear => .ok (t.linearGradient sx sy x y)

/-- `Table2D::gradientMany` (lines 573-576, via
    `ConcreteTable2DImpl::gradientMany`, lines 407-412): sequential loop;
    a throw aborts the whole batch. -/
def gradientMany (t : Table2D) (sx sy : ℕ) :
    List (ℚ × ℚ) → Except String (List (ℚ × ℚ))
  | [] => .ok []
  | (x, y) :: rest =>
    match t.gradient sx sy x y with
    | .error e => .error e
    | .ok (g, sx', sy') => (t.gradientMany sx' sy' rest).map (fun l => g :: l)

end Table2D

/-- The vector produced by the Thomas pass on the interior unknowns,
    extended by the natural boundary zeros (`y2[0] = y2[m+1] = 0`). -/
def tZfull (D E R : ℕ → ℚ) (m : ℕ) (j : ℕ) : ℚ :=
  if 1 ≤ j ∧ j ≤ m then tZ D E R m j else 0

/-- Strictly ascending arguments, stated over a raw array and count. -/
def AscendingArgs (args : ℕ → ℚ) (n : ℕ) : Prop := ∀ i < n - 1, args i < args (i+1)

/-- Modelled from the spec: the TMV build (`USE_TMV`, lines 224-239, not part
    of the compiled sources here) solves the symmetric tridiagonal system with
    diagonals `2*(args[i+1]-args[i-1])`, off-diagonals `args[i+1]-args[i]` and
    right-hand side `6*((vals[i+1]-vals[i])/(args[i+1]-args[i]) -
    (vals[i]-vals[i-1])/(args[i]-args[i-1]))` (`solution = rhs / M`).  This
    predicate says `z` is a solution of that system with the natural boundary
    conditions `y2[0] = y2[n-1] = 0`. -/
def SplineSystem (args vals : ℕ → ℚ) (n : ℕ) (z : ℕ → ℚ) : Prop :=
  z 0 = 0 ∧ z (n-1) = 0 ∧
  ∀ i, 1 ≤ i → i ≤ n - 2 →
    (args i - args (i-1)) * z (i-1) + 2 * (args (i+1) - args (i-1)) * z i +
      (args (i+1) - args i) * z (i+1) =
    6 * ((vals (i+1) - vals i) / (args (i+1) - args i) -
         (vals i - vals (i-1)) / (args i - args (i-1)))


instance (args : ℕ → ℚ) (n : ℕ) : Decidable (AscendingArgs args n) :=
  decidable_of_iff (∀ i < n - 1, args i < args (i+1)) Iff.rfl

/-- Concrete equal-spaced axis `[0,1,2,3]` (passes the 1% detection). -/
def uVec : ArgVec := ⟨fun i => [(0:ℚ), 1, 2, 3].getD i 0, 4⟩

/-- Concrete non-uniform axis `[0,1,3,7]` (fails the detection, so the real
    lookup runs the cursor path). -/
def wVec : ArgVec := ⟨fun i => [(0:ℚ), 1, 3, 7].getD i 0, 4⟩

/-- Concrete value array `[10,20,30,40]`. -/
def gVals : ℕ → ℚ := fun i => [(10:ℚ), 20, 30, 40].getD i 0

/-- Concrete table over args `[0,1,2,3]`, vals `[10,20,30,40]`. -/
def gTab (ity : Interpolant) : Table := ⟨uVec, gVals, ity⟩

/-- Concrete table over the non-uniform axis. -/
def wTab (ity : Interpolant) : Table := ⟨wVec, gVals, ity⟩

/-- Exactly-linear values `vals = 2*args + 5` over `[0,1,2,3]`. -/
def linVals : ℕ → ℚ := fun i => [(5:ℚ), 7, 9, 11].getD i 0

/-- A spline table holding exactly-linear, equally-spaced data. -/
def linTab : Table := ⟨uVec, linVals, Interpolant.spline⟩

/-- Non-linear values for the tridiagonal-equivalence witness. -/
def sVals : ℕ → ℚ := fun i => [(2:ℚ), 0, 5, 1].getD i 0

/-- Concrete two-point axis `[0,1]` for 2D witnesses. -/
def xy2 : ArgVec := ⟨fun i => [(0:ℚ), 1].getD i 0, 2⟩

/-- Concrete 2×2 2D table (row-major vals `[10,20,30,40]`). -/
def t2w (ity : Interpolant2D) : Table2D := ⟨xy2, xy2, gVals, ity⟩

/-- The contract C1 asserts of one `upperIndex` query: clamping below/above
    range, a valid bracket for in-range queries on whichever path runs, the
    same bracket property for each path taken by itself, and preservation of
    the cursor invariant (so it holds of every reachable cursor state). -/
def UpperIndexContract (v : ArgVec) (last : ℕ) (a : ℚ) : Prop :=
  (a < v.front → (v.upperIndex last a).1 = 1) ∧
  (v.back < a → (v.upperIndex last a).1 = v.n - 1) ∧
  (v.front ≤ a → a ≤ v.back → v.Bracket a (v.upperIndex last a).1) ∧
  (v.front ≤ a → a ≤ v.back → v.Bracket a (v.eqSpacedIndex a).toNat) ∧
  (v.front ≤ a → a ≤ v.back → v.Bracket a (v.cursorIndex last a).1) ∧
  v.ValidCursor (v.upperIndex last a).2

/-- The totality/in-bounds contract C10 asserts of one query: the nudge loops
    of the equal-spaced path are fuel-insensitive (they exit by their
    conditions) and land in `[1, n-1]`; the cursor path's result stays in
    `[1, n-1]`; its binary searches run over non-empty sub-ranges and cannot
    return `0` or `n`; and every value-array index read by the 1D and 2D
    floor/ceil/nearest interpolators — after their tie-break adjustments —
    stays in bounds. -/
def TotalityContract (v : ArgVec) (last : ℕ) (a : ℚ) : Prop :=
  (v.front ≤ a → a ≤ v.back →
    (∀ f g : ℕ, v.nudgeDown a (v.n + g) (v.nudgeUp a (v.n + f) (v.preNudgeIndex a)) =
        v.eqSpacedIndex a) ∧
    (1 ≤ (v.eqSpacedIndex a).toNat ∧ (v.eqSpacedIndex a).toNat ≤ v.n - 1) ∧
    (1 ≤ (v.cursorIndex last a).1 ∧ (v.cursorIndex last a).1 ≤ v.n - 1) ∧
    (a < v.vec (last - 1) → 2 ≤ last) ∧
    (a < v.vec (last - 1) → ¬ v.vec (last - 2) ≤ a →
      0 < last - 1 ∧
      1 ≤ v.upperBoundIdx a (last - 1) 0 (last - 1) ∧
      v.upperBoundIdx a (last - 1) 0 (last - 1) ≤ last - 2) ∧
    (¬ a < v.vec (last - 1) → v.vec last < a → ¬ a ≤ v.vec (last + 1) →
      last + 1 < v.n ∧
      last + 2 ≤ v.lowerBoundIdx a (v.n - (last + 1)) (last + 1) v.n ∧
      v.lowerBoundIdx a (v.n - (last + 1)) (last + 1) v.n ≤ v.n - 1)) ∧
  (1 ≤ (v.upperIndex last a).1 ∧ (v.upperIndex last a).1 ≤ v.n - 1) ∧
  (∀ t : Table, t.av = v →
    t.floorIdx a (v.upperIndex last a).1 ≤ v.n - 1 ∧
    t.ceilIdx a (v.upperIndex last a).1 ≤ v.n - 1 ∧
    t.nearestIdx a (v.upperIndex last a).1 ≤ v.n - 1) ∧
  (∀ (t2 : Table2D) (sy : ℕ) (y : ℚ), t2.xav = v → t2.yav.Ascending →
    2 ≤ t2.yav.n → t2.yav.ValidCursor sy →
    t2.floorIdx2D a y (t2.xav.upperIndex last a).1 (t2.yav.upperIndex sy y).1 <
      t2.nx * t2.ny ∧
    t2.ceilIdx2D a y (t2.xav.upperIndex last a).1 (t2.yav.upperIndex sy y).1 <
      t2.nx * t2.ny ∧
    t2.nearestIdx2D a y (t2.xav.upperIndex last a).1 (t2.yav.upperIndex sy y).1 <
      t2.nx * t2.ny)

-- ### Theorems ### --

namespace ArgVec

theorem vec_lt_vec {v : ArgVec} (h : v.Ascending) :
    ∀ {i j : ℕ}, i < j → j ≤ v.n - 1 → v.vec i < v.vec j := by
  intro i j
  induction j with
  | zero => omega
  | succ k ih =>
    intro hij hj
    rcases Nat.lt_succ_iff_lt_or_eq.mp hij with h' | h'
    · exact lt_trans (ih h' (by omega)) (h k (by omega))
    · subst h'; exact h i (by omega)

theorem vec_le_vec {v : ArgVec} (h : v.Ascending) {i j : ℕ}
    (hij : i ≤ j) (hj : j ≤ v.n - 1) : v.vec i ≤ v.vec j := by
  rcases Nat.lt_or_ge i j with h' | h'
  · exact le_of_lt (vec_lt_vec h h' hj)
  · have : i = j := by omega
    simp [this]

theorem front_lt_back {v : ArgVec} (h : v.Ascending) (hn : 2 ≤ v.n) :
    v.front < v.back :=
  vec_lt_vec h (by omega) (by omega)

/-- Specification of the embedded `std::lower_bound`: with sufficient fuel, the
    result is the first index in `[lo, hi)` whose element is not `< a`, else `hi`. -/
theorem lowerBoundIdx_spec {v : ArgVec} {a : ℚ} :
    ∀ (f lo hi : ℕ), hi - lo ≤ f →
      lo ≤ v.lowerBoundIdx a f lo hi ∧
      (lo ≤ hi → v.lowerBoundIdx a f lo hi ≤ hi) ∧
      (∀ k, lo ≤ k → k < v.lowerBoundIdx a f lo hi → v.vec k < a) ∧
      (v.lowerBoundIdx a f lo hi < hi → ¬ v.vec (v.lowerBoundIdx a f lo hi) < a) := by
  intro f
  induction f with
  | zero =>
    intro lo hi hf
    have : v.lowerBoundIdx a 0 lo hi = lo := rfl
    refine ⟨le_refl _, fun h => by omega, fun k hk1 hk2 => by omega, fun h => by omega⟩
  | succ f ih =>
    intro lo hi hf
    by_cases hlh : lo < hi
    · by_cases hv : v.vec lo < a
      · have heq : v.lowerBoundIdx a (f+1) lo hi = v.lowerBoundIdx a f (lo+1) hi := by
          simp [lowerBoundIdx, hlh, hv]
        obtain ⟨h1, h2, h3, h4⟩ := ih (lo+1) hi (by omega)
        rw [heq]
        refine ⟨by omega, fun _ => h2 (by omega), ?_, h4⟩
        intro k hk1 hk2
        rcases Nat.eq_or_lt_of_le hk1 with h' | h'
        · rw [← h']; exact hv
        · exact h3 k h' hk2
      · have heq : v.lowerBoundIdx a (f+1) lo hi = lo := by
          simp [lowerBoundIdx, hlh, hv]
        rw [heq]
        exact ⟨le_refl _, fun h => h, fun k hk1 hk2 => by omega, fun _ => hv⟩
    · have heq : v.lowerBoundIdx a (f+1) lo hi = lo := by
        simp [lowerBoundIdx, hlh]
      rw [heq]
      exact ⟨le_refl _, fun h => h, fun k hk1 hk2 => by omega, fun h => by omega⟩

/-- Specification of the embedded `std::upper_bound`: with sufficient fuel, the
    result is the first index in `[lo, hi)` whose element is `> a`, else `hi`. -/
theorem upperBoundIdx_spec {v : ArgVec} {a : ℚ} :
    ∀ (f lo hi : ℕ), hi - lo ≤ f →
      lo ≤ v.upperBoundIdx a f lo hi ∧
      (lo ≤ hi → v.upperBoundIdx a f lo hi ≤ hi) ∧
      (∀ k, lo ≤ k → k < v.upperBoundIdx a f lo hi → ¬ a < v.vec k) ∧
      (v.upperBoundIdx a f lo hi < hi → a < v.vec (v.upperBoundIdx a f lo hi)) := by
  intro f
  induction f with
  | zero =>
    intro lo hi hf
    have : v.upperBoundIdx a 0 lo hi = lo := rfl
    refine ⟨le_refl _, fun h => by omega, fun k hk1 hk2 => by omega, fun h => by omega⟩
  | succ f ih =>
    intro lo hi hf
    by_cases hlh : lo < hi
    · by_cases hv : a < v.vec lo
      · have heq : v.upperBoundIdx a (f+1) lo hi = lo := by
          simp [upperBoundIdx, hlh, hv]
        rw [heq]
        exact ⟨le_refl _, fun h => h, fun k hk1 hk2 => by omega, fun _ => hv⟩
      · have heq : v.upperBoundIdx a (f+1) lo hi = v.upperBoundIdx a f (lo+1) hi := by
          simp [upperBoundIdx, hlh, hv]
        obtain ⟨h1, h2, h3, h4⟩ := ih (lo+1) hi (by omega)
        rw [heq]
        refine ⟨by omega, fun _ => h2 (by omega), ?_, h4⟩
        intro k hk1 hk2
        rcases Nat.eq_or_lt_of_le hk1 with h' | h'
        · rw [← h']; exact hv
        · exact h3 k h' hk2
    · have heq : v.upperBoundIdx a (f+1) lo hi = lo := by
        simp [upperBoundIdx, hlh]
      rw [heq]
      exact ⟨le_refl _, fun h => h, fun k hk1 hk2 => by omega, fun h => by omega⟩

/-- The rounding-correction loop `while (a > _vec[i]) ++i` exits with the fuel
    the caller provides: starting in `[1, n-1]` with `a ≤ back()`, the index
    never leaves `[1, n-1]` and on exit `a ≤ _vec[i]`. -/
theorem nudgeUp_exit {v : ArgVec} {a : ℚ} :
    ∀ (f : ℕ) (i : ℤ), 1 ≤ i → i ≤ (v.n : ℤ) - 1 → a ≤ v.back →
      (v.n : ℤ) - 1 - i ≤ (f : ℤ) →
      i ≤ v.nudgeUp a f i ∧ v.nudgeUp a f i ≤ (v.n : ℤ) - 1 ∧
        a ≤ v.getZ (v.nudgeUp a f i) := by
  intro f
  induction f with
  | zero =>
    intro i hi1 hi2 hab hf
    have hi : i = (v.n : ℤ) - 1 := by omega
    have ht : i.toNat = v.n - 1 := by omega
    have : v.nudgeUp a 0 i = i := rfl
    rw [this]
    refine ⟨le_refl _, hi2, ?_⟩
    simpa [getZ, ht] using hab
  | succ f ih =>
    intro i hi1 hi2 hab hf
    by_cases hlt : v.getZ i < a
    · have heq : v.nudgeUp a (f+1) i = v.nudgeUp a f (i+1) := by
        simp [nudgeUp, hlt]
      have hne : i ≠ (v.n : ℤ) - 1 := by
        intro h
        have ht : i.toNat = v.n - 1 := by omega
        rw [getZ, ht] at hlt
        exact absurd hab (by exact not_le.mpr hlt)
      obtain ⟨h1, h2, h3⟩ := ih (i+1) (by omega) (by omega) hab (by omega)
      rw [heq]
      exact ⟨by omega, h2, h3⟩
    · have heq : v.nudgeUp a (f+1) i = i := by
        simp [nudgeUp, hlt]
      rw [heq]
      exact ⟨le_refl _, hi2, not_lt.mp hlt⟩

/-- Once the up-nudge loop's exit condition holds for some fuel, more fuel
    does not change the result (the loop really terminated). -/
theorem nudgeUp_fuel_mono {v : ArgVec} {a : ℚ} :
    ∀ (f g : ℕ) (i : ℤ), f ≤ g → a ≤ v.getZ (v.nudgeUp a f i) →
      v.nudgeUp a g i = v.nudgeUp a f i := by
  intro f
  induction f with
  | zero =>
    intro g i _ hexit
    have h0 : v.nudgeUp a 0 i = i := rfl
    rw [h0] at hexit ⊢
    cases g with
    | zero => rfl
    | succ g => simp [nudgeUp, not_lt.mpr hexit]
  | succ f ih =>
    intro g i hfg hexit
    cases g with
    | zero => omega
    | succ g =>
      by_cases hlt : v.getZ i < a
      · have heq : v.nudgeUp a (f+1) i = v.nudgeUp a f (i+1) := by
          simp [nudgeUp, hlt]
        rw [heq] at hexit
        have heq2 : v.nudgeUp a (g+1) i = v.nudgeUp a g (i+1) := by
          simp [nudgeUp, hlt]
        rw [heq, heq2]
        exact ih g (i+1) (by omega) hexit
      · simp [nudgeUp, hlt]

/-- The loop `while (a < _vec[i-1]) --i` exits with the provided fuel:
    starting in `[1, n-1]` with `front() ≤ a ≤ _vec[i]`, the index never
    leaves `[1, i]` and on exit `_vec[i-1] ≤ a ≤ _vec[i]`. -/
theorem nudgeDown_exit {v : ArgVec} {a : ℚ} :
    ∀ (f : ℕ) (i : ℤ), 1 ≤ i → v.front ≤ a → a ≤ v.getZ i →
      i - 1 ≤ (f : ℤ) →
      1 ≤ v.nudgeDown a f i ∧ v.nudgeDown a f i ≤ i ∧
        v.getZ (v.nudgeDown a f i - 1) ≤ a ∧ a ≤ v.getZ (v.nudgeDown a f i) := by
  intro f
  induction f with
  | zero =>
    intro i hi1 hfa hai hf
    have hi : i = 1 := by omega
    have h0 : v.nudgeDown a 0 i = i := rfl
    rw [h0]
    subst hi
    refine ⟨le_refl _, le_refl _, ?_, hai⟩
    simpa [getZ, front] using hfa
  | succ f ih =>
    intro i hi1 hfa hai hf
    by_cases hlt : a < v.getZ (i-1)
    · have heq : v.nudgeDown a (f+1) i = v.nudgeDown a f (i-1) := by
        simp [nudgeDown, hlt]
      have hne : i ≠ 1 := by
        intro h
        subst h
        rw [getZ] at hlt
        norm_num at hlt
        exact absurd hfa (not_le.mpr (by simpa [front] using hlt))
      obtain ⟨h1, h2, h3, h4⟩ := ih (i-1) (by omega) hfa (le_of_lt hlt) (by omega)
      rw [heq]
      exact ⟨h1, by omega, h3, h4⟩
    · have heq : v.nudgeDown a (f+1) i = i := by
        simp [nudgeDown, hlt]
      rw [heq]
      exact ⟨hi1, le_refl _, not_lt.mp hlt, hai⟩

/-- Once the down-nudge loop's exit condition holds for some fuel, more fuel
    does not change the result. -/
theorem nudgeDown_fuel_mono {v : ArgVec} {a : ℚ} :
    ∀ (f g : ℕ) (i : ℤ), f ≤ g → v.getZ (v.nudgeDown a f i - 1) ≤ a →
      v.nudgeDown a g i = v.nudgeDown a f i := by
  intro f
  induction f with
  | zero =>
    intro g i _ hexit
    have h0 : v.nudgeDown a 0 i = i := rfl
    rw [h0] at hexit ⊢
    cases g with
    | zero => rfl
    | succ g => simp [nudgeDown, not_lt.mpr hexit]
  | succ f ih =>
    intro g i hfg hexit
    cases g with
    | zero => omega
    | succ g =>
      by_cases hlt : a < v.getZ (i-1)
      · have heq : v.nudgeDown a (f+1) i = v.nudgeDown a f (i-1) := by
          simp [nudgeDown, hlt]
        rw [heq] at hexit
        have heq2 : v.nudgeDown a (g+1) i = v.nudgeDown a g (i-1) := by
          simp [nudgeDown, hlt]
        rw [heq, heq2]
        exact ih g (i-1) (by omega) hexit
      · simp [nudgeDown, hlt]

theorem da_pos {v : ArgVec} (hasc : v.Ascending) (hn : 2 ≤ v.n) : 0 < v.da := by
  have h1 : v.front < v.back := front_lt_back hasc hn
  have h2 : (0 : ℚ) < (v.n : ℚ) - 1 := by
    have : (2 : ℚ) ≤ (v.n : ℚ) := by exact_mod_cast hn
    linarith
  exact div_pos (by linarith) h2

/-- Lines 86-89: the index computed by `ceil` arithmetic, after the two
    rounding-guard branches, lies in `[1, n-1]`. -/
theorem preNudgeIndex_bounds {v : ArgVec} (hasc : v.Ascending) (hn : 2 ≤ v.n)
    {a : ℚ} (h1 : v.front ≤ a) (h2 : a ≤ v.back) :
    1 ≤ v.preNudgeIndex a ∧ v.preNudgeIndex a ≤ (v.n : ℤ) - 1 := by
  have hda : 0 < v.da := da_pos hasc hn
  have hn1 : (0 : ℚ) < (v.n : ℚ) - 1 := by
    have : (2 : ℚ) ≤ (v.n : ℚ) := by exact_mod_cast hn
    linarith
  have hx0 : 0 ≤ (a - v.front) / v.da := div_nonneg (by linarith) (le_of_lt hda)
  have hmul : ((v.n : ℚ) - 1) * v.da = v.back - v.front := by
    rw [da]
    field_simp
  have hx1 : (a - v.front) / v.da ≤ (v.n : ℚ) - 1 := by
    rw [div_le_iff₀ hda, hmul]
    linarith
  have hc0 : 0 ≤ ⌈(a - v.front) / v.da⌉ := Int.ceil_nonneg hx0
  have hc1 : ⌈(a - v.front) / v.da⌉ ≤ (v.n : ℤ) - 1 := by
    rw [Int.ceil_le]
    push_cast
    exact hx1
  rw [preNudgeIndex]
  have hnn : ¬ ((v.n : ℤ) ≤ ⌈(a - v.front) / v.da⌉) := by omega
  simp only [hnn, if_false]
  split_ifs with h0
  · omega
  · omega

/-- The whole equal-spaced path (after the range check) returns a valid
    bracket, and the two nudge loops are insensitive to extra fuel
    (they terminate by their conditions, not by fuel exhaustion). -/
theorem eqSpacedIndex_spec {v : ArgVec} (hasc : v.Ascending) (hn : 2 ≤ v.n)
    {a : ℚ} (h1 : v.front ≤ a) (h2 : a ≤ v.back) :
    v.Bracket a (v.eqSpacedIndex a).toNat ∧
    ∀ f g : ℕ, v.nudgeDown a (v.n + g) (v.nudgeUp a (v.n + f) (v.preNudgeIndex a)) =
      v.eqSpacedIndex a := by
  obtain ⟨hp1, hp2⟩ := preNudgeIndex_bounds hasc hn h1 h2
  obtain ⟨hu1, hu2, hu3⟩ := nudgeUp_exit v.n (v.preNudgeIndex a) hp1 hp2 h2 (by omega)
  obtain ⟨hd1, hd2, hd3, hd4⟩ :=
    nudgeDown_exit v.n (v.nudgeUp a v.n (v.preNudgeIndex a)) (by omega) h1 hu3 (by omega)
  have hre : v.eqSpacedIndex a =
      v.nudgeDown a v.n (v.nudgeUp a v.n (v.preNudgeIndex a)) := rfl
  constructor
  · rw [Bracket, hre]
    refine ⟨by omega, by omega, ?_, ?_⟩
    · have ht : ((v.nudgeDown a v.n (v.nudgeUp a v.n (v.preNudgeIndex a))) - 1).toNat =
          (v.nudgeDown a v.n (v.nudgeUp a v.n (v.preNudgeIndex a))).toNat - 1 := by omega
      rw [getZ, ht] at hd3
      exact hd3
    · rw [getZ] at hd4
      exact hd4
  · intro f g
    rw [eqSpacedIndex]
    rw [nudgeUp_fuel_mono v.n (v.n + f) _ (by omega) hu3]
    exact nudgeDown_fuel_mono v.n (v.n + g) _ (by omega) hd3

/-- The non-uniform (cursor) path returns a valid bracket for every in-range
    query and every cursor state satisfying the invariant, and stores the
    returned index back into the cursor. -/
theorem cursorIndex_spec {v : ArgVec} (hasc : v.Ascending) (hn : 2 ≤ v.n)
    {last : ℕ} (hc : v.ValidCursor last) {a : ℚ}
    (h1 : v.front ≤ a) (h2 : a ≤ v.back) :
    v.Bracket a (v.cursorIndex last a).1 ∧
      (v.cursorIndex last a).2 = (v.cursorIndex last a).1 := by
  obtain ⟨hc1, hc2⟩ := hc
  by_cases hA : a < v.vec (last - 1)
  · have hlast2 : 2 ≤ last := by
      by_contra h
      have : last = 1 := by omega
      rw [this] at hA
      exact absurd h1 (not_le.mpr (by simpa [front] using hA))
    by_cases hA1 : v.vec (last - 2) ≤ a
    · have heq : v.cursorIndex last a = (last - 1, last - 1) := by
        simp [cursorIndex, hA, hA1]
      rw [heq]
      refine ⟨⟨by omega, by omega, ?_, le_of_lt hA⟩, rfl⟩
      have : last - 1 - 1 = last - 2 := by omega
      rw [this]
      exact hA1
    · have heq : v.cursorIndex last a =
          (v.upperBoundIdx a (last - 1) 0 (last - 1),
           v.upperBoundIdx a (last - 1) 0 (last - 1)) := by
        simp [cursorIndex, hA, hA1]
      obtain ⟨hp0, hp1, hp2, hp3⟩ := upperBoundIdx_spec (last - 1) 0 (last - 1) (by omega)
      set p := v.upperBoundIdx a (last - 1) 0 (last - 1) with hp
      have hA1' : a < v.vec (last - 2) := not_le.mp hA1
      have hplt : p < last - 1 := by
        rcases Nat.lt_or_ge p (last - 1) with h | h
        · exact h
        · exfalso
          exact hp2 (last - 2) (by omega) (by omega) hA1'
      have hp1' : 1 ≤ p := by
        by_contra h
        have h0 : p = 0 := by omega
        have := hp3 hplt
        rw [h0] at this
        exact absurd h1 (not_le.mpr (by simpa [front] using this))
      rw [heq]
      refine ⟨⟨hp1', by omega, ?_, le_of_lt (hp3 hplt)⟩, rfl⟩
      exact not_lt.mp (hp2 (p - 1) (by omega) (by omega))
  · by_cases hB : v.vec last < a
    · have hlastn : last ≤ v.n - 2 := by
        by_contra h
        have : last = v.n - 1 := by omega
        rw [this] at hB
        exact absurd h2 (not_le.mpr (by simpa [back] using hB))
      by_cases hB1 : a ≤ v.vec (last + 1)
      · have heq : v.cursorIndex last a = (last + 1, last + 1) := by
          simp [cursorIndex, hA, hB, hB1]
        rw [heq]
        refine ⟨⟨by omega, by omega, ?_, hB1⟩, rfl⟩
        have : last + 1 - 1 = last := by omega
        rw [this]
        exact le_of_lt hB
      · have heq : v.cursorIndex last a =
            (v.lowerBoundIdx a (v.n - (last + 1)) (last + 1) v.n,
             v.lowerBoundIdx a (v.n - (last + 1)) (last + 1) v.n) := by
          simp [cursorIndex, hA, hB, hB1]
        obtain ⟨hp0, hp1, hp2, hp3⟩ :=
          lowerBoundIdx_spec (v.n - (last + 1)) (last + 1) v.n (by omega)
        set p := v.lowerBoundIdx a (v.n - (last + 1)) (last + 1) v.n with hp
        have hB1' : v.vec (last + 1) < a := not_le.mp hB1
        have hpn : p ≤ v.n - 1 := by
          by_contra h
          have hpe : p = v.n := by
            have := hp1 (by omega)
            omega
          have := hp2 (v.n - 1) (by omega) (by omega)
          exact absurd h2 (not_le.mpr (by simpa [back] using this))
        have hpl : last + 2 ≤ p := by
          by_contra h
          have hpe : p = last + 1 := by omega
          have := hp3 (by omega)
          rw [hpe] at this
          exact this hB1'
        rw [heq]
        refine ⟨⟨by omega, hpn, le_of_lt (hp2 (p - 1) (by omega) (by omega)), ?_⟩, rfl⟩
        exact not_lt.mp (hp3 (by omega))
    · have heq : v.cursorIndex last a = (last, last) := by
        simp [cursorIndex, hA, hB]
      rw [heq]
      exact ⟨⟨hc1, hc2, not_lt.mp hA, not_lt.mp hB⟩, rfl⟩

/-- Full contract of `ArgVec::upperIndex`: below-range queries return 1,
    above-range queries return `n-1`, in-range queries return a valid
    bracket (on whichever path runs), and the cursor invariant is preserved. -/
theorem upperIndex_spec {v : ArgVec} (hasc : v.Ascending) (hn : 2 ≤ v.n)
    {last : ℕ} (hc : v.ValidCursor last) (a : ℚ) :
    (a < v.front → v.upperIndex last a = (1, last)) ∧
    (v.back < a → ¬ a < v.front → v.upperIndex last a = (v.n - 1, last)) ∧
    (v.front ≤ a → a ≤ v.back → v.Bracket a (v.upperIndex last a).1) ∧
    v.ValidCursor (v.upperIndex last a).2 := by
  refine ⟨?_, ?_, ?_, ?_⟩
  · intro h
    simp [upperIndex, h]
  · intro h h'
    simp [upperIndex, h, h']
  · intro hf hb
    have h' : ¬ a < v.front := not_lt.mpr hf
    have h'' : ¬ v.back < a := not_lt.mpr hb
    by_cases he : v.equalSpaced
    · have heq : v.upperIndex last a = ((v.eqSpacedIndex a).toNat, last) := by
        simp [upperIndex, h', h'', he]
      rw [heq]
      exact (eqSpacedIndex_spec hasc hn hf hb).1
    · have heq : v.upperIndex last a = v.cursorIndex last a := by
        simp [upperIndex, h', h'', he]
      rw [heq]
      exact (cursorIndex_spec hasc hn hc hf hb).1
  · by_cases hf : a < v.front
    · simp [upperIndex, hf]; exact hc
    · by_cases hb : v.back < a
      · simp [upperIndex, hf, hb]; exact hc
      · by_cases he : v.equalSpaced
        · have heq : v.upperIndex last a = ((v.eqSpacedIndex a).toNat, last) := by
            simp [upperIndex, hf, hb, he]
          rw [heq]
          exact hc
        · have heq : v.upperIndex last a = v.cursorIndex last a := by
            simp [upperIndex, hf, hb, he]
          rw [heq]
          obtain ⟨hbr, hcur⟩ := cursorIndex_spec hasc hn hc (not_lt.mp hf) (not_lt.mp hb)
          rw [hcur]
          exact ⟨hbr.1, hbr.2.1⟩

/-- Two valid brackets for the same query either coincide, or are adjacent
    with the query exactly on the shared grid point. -/
theorem bracket_unique {v : ArgVec} (hasc : v.Ascending) {a : ℚ} {i j : ℕ}
    (hi : v.Bracket a i) (hj : v.Bracket a j) :
    i = j ∨ (i + 1 = j ∧ a = v.vec i) ∨ (j + 1 = i ∧ a = v.vec j) := by
  obtain ⟨hi1, hi2, hi3, hi4⟩ := hi
  obtain ⟨hj1, hj2, hj3, hj4⟩ := hj
  rcases Nat.lt_trichotomy i j with h | h | h
  · right; left
    have hij : i ≤ j - 1 := by omega
    have : i = j - 1 := by
      by_contra hne
      have hlt : i < j - 1 := by omega
      have := vec_lt_vec hasc hlt (by omega)
      linarith
    constructor
    · omega
    · rw [this] at hi4 ⊢
      exact le_antisymm hi4 hj3
  · left; exact h
  · right; right
    have hij : j ≤ i - 1 := by omega
    have : j = i - 1 := by
      by_contra hne
      have hlt : j < i - 1 := by omega
      have := vec_lt_vec hasc hlt (by omega)
      linarith
    constructor
    · omega
    · rw [this] at hj4 ⊢
      exact le_antisymm hj4 hi3

/-- A valid bracket for a query lying exactly on grid point `k` is `k` or `k+1`. -/
theorem bracket_of_grid {v : ArgVec} (hasc : v.Ascending) {k i : ℕ}
    (hk : k ≤ v.n - 1) (hb : v.Bracket (v.vec k) i) : i = k ∨ i = k + 1 := by
  obtain ⟨hi1, hi2, hi3, hi4⟩ := hb
  have hki : k ≤ i := by
    by_contra h
    have : i < k := by omega
    have := vec_lt_vec hasc this hk
    linarith
  have hik : i ≤ k + 1 := by
    by_contra h
    have : k < i - 1 := by omega
    have := vec_lt_vec hasc this (by omega)
    linarith
  omega

/-- The 1D linear weight `ax = (vec i - a)/(vec i - vec (i-1))` at a grid
    query degenerates to 0 (same-cell upper bound) or 1 (next-cell case). -/
theorem grid_weight {v : ArgVec} (hasc : v.Ascending) {k i : ℕ}
    (hk : k ≤ v.n - 1) (hb : v.Bracket (v.vec k) i) :
    ((v.vec i - v.vec k) / (v.vec i - v.vec (i-1)) = 0 ∧ i = k) ∨
    ((v.vec i - v.vec k) / (v.vec i - v.vec (i-1)) = 1 ∧ i = k + 1) := by
  have hi2 := hb.2.1
  obtain hik | hik := bracket_of_grid hasc hk hb
  · left
    subst hik
    simp
  · right
    subst hik
    have hlt : v.vec k < v.vec (k+1) := hasc k (by omega)
    have hne : v.vec (k+1) - v.vec (k+1-1) ≠ 0 := by
      rw [Nat.add_sub_cancel]
      exact sub_ne_zero.mpr (ne_of_gt hlt)
    rw [Nat.add_sub_cancel] at hne ⊢
    exact ⟨div_self hne, rfl⟩

end ArgVec

namespace Table

theorem args_def (t : Table) : t.args = t.av.vec := rfl

theorem n_def (t : Table) : t.n = t.av.n := rfl

/-- A valid bracket for a query lying exactly on grid point `k` is `k` or `k+1`. -/
theorem bracketIndex_of_grid {t : Table} (hasc : t.av.Ascending) {k i : ℕ}
    (hk : k ≤ t.n - 1) (hb : t.av.Bracket (t.args k) i) : i = k ∨ i = k + 1 :=
  ArgVec.bracket_of_grid hasc (by rw [n_def] at hk; exact hk) hb

theorem linear_grid {t : Table} (hasc : t.av.Ascending) {k i : ℕ}
    (hk : k ≤ t.n - 1) (hb : t.av.Bracket (t.args k) i) :
    t.linearInterpolate (t.args k) i = t.vals k := by
  have hi2 := hb.2.1
  obtain hik | hik := bracketIndex_of_grid hasc hk hb
  · subst hik
    simp [linearInterpolate]
  · subst hik
    have hlt : t.args k < t.args (k+1) := by
      rw [args_def]
      exact hasc k (by omega)
    have hne : t.args (k+1) - t.args k ≠ 0 := sub_ne_zero.mpr (ne_of_gt hlt)
    simp only [linearInterpolate, Nat.add_sub_cancel]
    rw [div_self hne]
    ring

theorem floor_grid {t : Table} (hasc : t.av.Ascending) {k i : ℕ}
    (hk : k ≤ t.n - 1) (hb : t.av.Bracket (t.args k) i) :
    t.floorInterpolate (t.args k) i = t.vals k := by
  have hi2 := hb.2.1
  obtain hik | hik := bracketIndex_of_grid hasc hk hb
  · subst hik
    simp [floorInterpolate, floorIdx]
  · subst hik
    have hlt : t.args k < t.args (k+1) := by
      rw [args_def]
      exact hasc k (by omega)
    have hne : t.args k ≠ t.args (k+1) := ne_of_lt hlt
    simp [floorInterpolate, floorIdx, hne]

theorem ceil_grid {t : Table} (hasc : t.av.Ascending) {k i : ℕ}
    (hk : k ≤ t.n - 1) (hb : t.av.Bracket (t.args k) i) :
    t.ceilInterpolate (t.args k) i = t.vals k := by
  have hi1 := hb.1
  have hi2 := hb.2.1
  obtain hik | hik := bracketIndex_of_grid hasc hk hb
  · subst hik
    have hlt : t.args (i-1) < t.args i := by
      rw [args_def]
      exact ArgVec.vec_lt_vec hasc (show i - 1 < i by omega) hi2
    have hne : t.args i ≠ t.args (i-1) := ne_of_gt hlt
    simp [ceilInterpolate, ceilIdx, hne]
  · subst hik
    simp [ceilInterpolate, ceilIdx]

theorem nearest_grid {t : Table} (hasc : t.av.Ascending) {k i : ℕ}
    (hk : k ≤ t.n - 1) (hb : t.av.Bracket (t.args k) i) :
    t.nearestInterpolate (t.args k) i = t.vals k := by
  have hi1 := hb.1
  have hi2 := hb.2.1
  obtain hik | hik := bracketIndex_of_grid hasc hk hb
  · subst hik
    have hlt : t.args (i-1) < t.args i := by
      rw [args_def]
      exact ArgVec.vec_lt_vec hasc (show i - 1 < i by omega) hi2
    have hcond : ¬ (t.args i - t.args (i-1) < t.args i - t.args i) := by
      rw [sub_self]
      simp
      linarith
    simp only [nearestInterpolate, nearestIdx]
    rw [if_neg hcond]
  · subst hik
    have hlt : t.args k < t.args (k+1) := by
      rw [args_def]
      exact hasc k (by omega)
    have hcond : t.args k - t.args (k+1-1) < t.args (k+1) - t.args k := by
      rw [Nat.add_sub_cancel, sub_self]
      linarith
    simp only [nearestInterpolate, nearestIdx]
    rw [if_pos hcond, Nat.add_sub_cancel]

theorem spline_grid {t : Table} (hasc : t.av.Ascending) {k i : ℕ}
    (hk : k ≤ t.n - 1) (hb : t.av.Bracket (t.args k) i) :
    t.splineInterpolate (t.args k) i = t.vals k := by
  have hi1 := hb.1
  have hi2 := hb.2.1
  obtain hik | hik := bracketIndex_of_grid hasc hk hb
  · subst hik
    have hlt : t.args (i-1) < t.args i := by
      rw [args_def]
      exact ArgVec.vec_lt_vec hasc (show i - 1 < i by omega) hi2
    have hne : t.args i - t.args (i-1) ≠ 0 := sub_ne_zero.mpr (ne_of_gt hlt)
    simp only [splineInterpolate, sub_self]
    field_simp
  · subst hik
    have hlt : t.args k < t.args (k+1) := by
      rw [args_def]
      exact hasc k (by omega)
    have hne : t.args (k+1) - t.args k ≠ 0 := sub_ne_zero.mpr (ne_of_gt hlt)
    simp only [splineInterpolate, Nat.add_sub_cancel, sub_sub_cancel]
    field_simp

/-- Evaluating any rule's interpolator at grid point `k` through any valid
    bracket yields `vals[k]`. -/
theorem interpolate_grid {t : Table} (hasc : t.av.Ascending) {k i : ℕ}
    (hk : k ≤ t.n - 1) (hb : t.av.Bracket (t.args k) i) :
    t.interpolate (t.args k) i = t.vals k := by
  cases hty : t.ity <;>
    simp only [interpolate, hty] <;>
    [exact linear_grid hasc hk hb;
     exact floor_grid hasc hk hb;
     exact ceil_grid hasc hk hb;
     exact nearest_grid hasc hk hb;
     exact spline_grid hasc hk hb]

/-- The interpolated value depends only on the query, not on which of the
    (at most two) valid brackets the index locator returned. -/
theorem interpolate_bracket_eq {t : Table} (hasc : t.av.Ascending) {a : ℚ} {i j : ℕ}
    (hi : t.av.Bracket a i) (hj : t.av.Bracket a j) :
    t.interpolate a i = t.interpolate a j := by
  obtain h | ⟨hij, hgrid⟩ | ⟨hij, hgrid⟩ := ArgVec.bracket_unique hasc hi hj
  · rw [h]
  · have hk : i ≤ t.n - 1 := by rw [n_def]; exact hi.2.1
    have hgrid' : a = t.args i := by rw [args_def]; exact hgrid
    subst hgrid'
    rw [interpolate_grid hasc hk hi, interpolate_grid hasc hk hj]
  · have hk : j ≤ t.n - 1 := by rw [n_def]; exact hj.2.1
    have hgrid' : a = t.args j := by rw [args_def]; exact hgrid
    subst hgrid'
    rw [interpolate_grid hasc hk hi, interpolate_grid hasc hk hj]

/-- The lookup value is the same for every cursor state satisfying the
    invariant: the cursor is a pure performance hint. -/
theorem lookup_cursor_independent {t : Table} (hasc : t.av.Ascending)
    (hn : 2 ≤ t.n) {s s' : ℕ} (hs : t.av.ValidCursor s)
    (hs' : t.av.ValidCursor s') (a : ℚ) :
    (t.lookup s a).1 = (t.lookup s' a).1 := by
  have hn' : 2 ≤ t.av.n := by rw [n_def] at hn; exact hn
  obtain ⟨hlo, hhi, hbr, _⟩ := ArgVec.upperIndex_spec hasc hn' hs a
  obtain ⟨hlo', hhi', hbr', _⟩ := ArgVec.upperIndex_spec hasc hn' hs' a
  by_cases h1 : a < t.av.front
  · simp only [lookup, hlo h1, hlo' h1]
  · by_cases h2 : t.av.back < a
    · simp only [lookup, hhi h2 h1, hhi' h2 h1]
    · have hb := hbr (not_lt.mp h1) (not_lt.mp h2)
      have hb' := hbr' (not_lt.mp h1) (not_lt.mp h2)
      simp only [lookup]
      exact interpolate_bracket_eq hasc hb hb'

/-- Looking up exactly at grid point `k` returns `vals[k]`, for every rule
    and every valid cursor state. -/
theorem lookup_grid {t : Table} (hasc : t.av.Ascending) (hn : 2 ≤ t.n)
    {s : ℕ} (hs : t.av.ValidCursor s) {k : ℕ} (hk : k < t.n) :
    (t.lookup s (t.args k)).1 = t.vals k := by
  have hn' : 2 ≤ t.av.n := by rw [n_def] at hn; exact hn
  have hk' : k ≤ t.av.n - 1 := by rw [n_def] at hk; omega
  have hf : t.av.front ≤ t.args k := by
    rw [args_def]
    exact ArgVec.vec_le_vec hasc (Nat.zero_le k) hk'
  have hb : t.args k ≤ t.av.back := by
    rw [args_def]
    exact ArgVec.vec_le_vec hasc hk' (le_refl _)
  obtain ⟨_, _, hbr, _⟩ := ArgVec.upperIndex_spec hasc hn' hs (t.args k)
  have hbk := hbr hf hb
  simp only [lookup]
  exact interpolate_grid hasc (by rw [n_def]; exact hk') hbk

end Table

namespace Table2D

theorem nx_def (t : Table2D) : t.nx = t.xav.n := rfl

theorem ny_def (t : Table2D) : t.ny = t.yav.n := rfl

theorem xargs_def (t : Table2D) : t.xargs = t.xav.vec := rfl

theorem yargs_def (t : Table2D) : t.yargs = t.yav.vec := rfl

/-- Arithmetic core of the corner-exactness property: when each 1D weight
    degenerates to 0 or 1, the four-corner area-weighted sum collapses to the
    single grid value. -/
theorem bilinear_select (vals : ℕ → ℚ) (ny : ℕ) {i j k l : ℕ} {ax ay : ℚ}
    (hx : (ax = 0 ∧ i = k) ∨ (ax = 1 ∧ i = k + 1))
    (hy : (ay = 0 ∧ j = l) ∨ (ay = 1 ∧ j = l + 1)) :
    vals ((i-1) * ny + (j-1)) * ax * ay + vals (i * ny + (j-1)) * (1 - ax) * ay
      + vals ((i-1) * ny + j) * ax * (1 - ay) + vals (i * ny + j) * (1 - ax) * (1 - ay)
      = vals (k * ny + l) := by
  rcases hx with ⟨hax, hik⟩ | ⟨hax, hik⟩ <;>
    rcases hy with ⟨hay, hjl⟩ | ⟨hay, hjl⟩ <;>
    subst hik <;> subst hjl <;> rw [hax, hay] <;>
    (try simp only [Nat.add_sub_cancel]) <;> ring

/-- Bilinear interpolation evaluated exactly at grid point `(k, l)` returns
    the stored grid value, for all valid cursor states. -/
theorem linearInterp_corner {t : Table2D} (hx : t.xav.Ascending)
    (hy : t.yav.Ascending) (hnx : 2 ≤ t.nx) (hny : 2 ≤ t.ny)
    {sx sy : ℕ} (hsx : t.xav.ValidCursor sx) (hsy : t.yav.ValidCursor sy)
    {k l : ℕ} (hk : k < t.nx) (hl : l < t.ny) :
    (t.linearInterp sx sy (t.xargs k) (t.yargs l)).1 = t.vals (k * t.ny + l) := by
  have hnx' : 2 ≤ t.xav.n := by rw [nx_def] at hnx; exact hnx
  have hny' : 2 ≤ t.yav.n := by rw [ny_def] at hny; exact hny
  have hk' : k ≤ t.xav.n - 1 := by rw [nx_def] at hk; omega
  have hl' : l ≤ t.yav.n - 1 := by rw [ny_def] at hl; omega
  have hfx : t.xav.front ≤ t.xargs k := by
    rw [xargs_def]
    exact ArgVec.vec_le_vec hx (Nat.zero_le k) hk'
  have hbx2 : t.xargs k ≤ t.xav.back := by
    rw [xargs_def]
    exact ArgVec.vec_le_vec hx hk' (le_refl _)
  have hfy : t.yav.front ≤ t.yargs l := by
    rw [yargs_def]
    exact ArgVec.vec_le_vec hy (Nat.zero_le l) hl'
  have hby2 : t.yargs l ≤ t.yav.back := by
    rw [yargs_def]
    exact ArgVec.vec_le_vec hy hl' (le_refl _)
  obtain ⟨_, _, hbrx, _⟩ := ArgVec.upperIndex_spec hx hnx' hsx (t.xargs k)
  obtain ⟨_, _, hbry, _⟩ := ArgVec.upperIndex_spec hy hny' hsy (t.yargs l)
  have hbkx : t.xav.Bracket (t.xav.vec k) (t.xav.upperIndex sx (t.xargs k)).1 := by
    rw [← xargs_def]
    exact hbrx hfx hbx2
  have hbly : t.yav.Bracket (t.yav.vec l) (t.yav.upperIndex sy (t.yargs l)).1 := by
    rw [← yargs_def]
    exact hbry hfy hby2
  have hwx := ArgVec.grid_weight hx hk' hbkx
  have hwy := ArgVec.grid_weight hy hl' hbly
  simp only [linearInterp, xargs_def, yargs_def] at hwx hwy ⊢
  exact bilinear_select t.vals t.ny hwx hwy

end Table2D

theorem tBB_one (D E : ℕ → ℚ) : tBB D E 1 = D 1 := rfl

theorem tBB_succ (D E : ℕ → ℚ) {i : ℕ} (hi : 2 ≤ i) :
    tBB D E i = D i - (E (i-1))^2 / tBB D E (i-1) := by
  match i, hi with
  | (j+2), _ => simp [tBB]

theorem tG_one (D E R : ℕ → ℚ) : tG D E R 1 = R 1 / tBB D E 1 := rfl

theorem tG_succ (D E R : ℕ → ℚ) {i : ℕ} (hi : 2 ≤ i) :
    tG D E R i = (R i - E (i-1) * tG D E R (i-1)) / tBB D E i := by
  match i, hi with
  | (j+2), _ => simp [tG]

theorem tZ_last (D E R : ℕ → ℚ) (m : ℕ) : tZ D E R m m = tG D E R m := by
  rw [tZ]
  simp

theorem tZ_step (D E R : ℕ → ℚ) {m i : ℕ} (h : i < m) :
    tZ D E R m i = tG D E R i - tC D E i * tZ D E R m (i+1) := by
  rw [tZ]
  simp [Nat.not_le.mpr h]

/-- Diagonal dominance keeps every Thomas pivot above the next off-diagonal
    (in particular nonzero), for the spline system's coefficients. -/
theorem tBB_gt_E (D E : ℕ → ℚ) (m : ℕ)
    (hD : ∀ i, 1 ≤ i → i ≤ m → D i = 2 * (E (i-1) + E i))
    (hE : ∀ i, i ≤ m → 0 < E i) :
    ∀ i, 1 ≤ i → i ≤ m → E i < tBB D E i := by
  intro i
  induction i with
  | zero => omega
  | succ j ih =>
    intro h1 h2
    by_cases hj : j = 0
    · subst hj
      rw [tBB_one, hD 1 (by omega) h2]
      have h0 := hE 0 (by omega)
      have h1' := hE 1 h2
      linarith
    · have hj1 : 1 ≤ j := by omega
      have hbj := ih hj1 (by omega)
      have hEj := hE j (by omega)
      have hEj1 := hE (j+1) h2
      have hbbj : 0 < tBB D E j := lt_trans hEj hbj
      rw [tBB_succ D E (show 2 ≤ j + 1 by omega)]
      have hfrac : (E (j+1-1))^2 / tBB D E (j+1-1) < E j := by
        rw [Nat.add_sub_cancel]
        rw [div_lt_iff₀ hbbj]
        have : E j * E j < E j * tBB D E j := by
          exact mul_lt_mul_of_pos_left hbj hEj
        calc (E j)^2 = E j * E j := sq (E j) ▸ by ring
          _ < E j * tBB D E j := this
      rw [hD (j+1) (by omega) h2]
      have : j + 1 - 1 = j := by omega
      rw [this] at hfrac ⊢
      linarith

theorem tBB_pos (D E : ℕ → ℚ) (m : ℕ)
    (hD : ∀ i, 1 ≤ i → i ≤ m → D i = 2 * (E (i-1) + E i))
    (hE : ∀ i, i ≤ m → 0 < E i) :
    ∀ i, 1 ≤ i → i ≤ m → 0 < tBB D E i := by
  intro i h1 h2
  exact lt_trans (hE i h2) (tBB_gt_E D E m hD hE i h1 h2)

theorem tZfull_boundary_low (D E R : ℕ → ℚ) (m : ℕ) : tZfull D E R m 0 = 0 := by
  simp [tZfull]

theorem tZfull_boundary_high (D E R : ℕ → ℚ) {m j : ℕ} (h : m < j) :
    tZfull D E R m j = 0 := by
  simp only [tZfull]
  rw [if_neg]
  omega

theorem tZfull_interior (D E R : ℕ → ℚ) {m j : ℕ} (h1 : 1 ≤ j) (h2 : j ≤ m) :
    tZfull D E R m j = tZ D E R m j := by
  simp only [tZfull]
  rw [if_pos ⟨h1, h2⟩]

/-- The forward-elimination + back-substitution output satisfies every row of
    the symmetric tridiagonal system (diagonal `D`, off-diagonals `E`,
    right-hand side `R`, natural boundary zeros). -/
theorem thomas_solves (D E R : ℕ → ℚ) (m : ℕ) (hm : 2 ≤ m)
    (hD : ∀ i, 1 ≤ i → i ≤ m → D i = 2 * (E (i-1) + E i))
    (hE : ∀ i, i ≤ m → 0 < E i) :
    ∀ i, 1 ≤ i → i ≤ m →
      E (i-1) * tZfull D E R m (i-1) + D i * tZfull D E R m i +
        E i * tZfull D E R m (i+1) = R i := by
  intro i hi1 him
  have hbb := tBB_pos D E m hD hE
  by_cases hone : i = 1
  · subst hone
    have hne : tBB D E 1 ≠ 0 := ne_of_gt (hbb 1 (le_refl _) (by omega))
    rw [tZfull_boundary_low, tZfull_interior D E R (le_refl _) (by omega),
      tZfull_interior D E R (show 1 ≤ 2 by omega) hm,
      tZ_step D E R (show (1:ℕ) < m by omega), tG_one, tC,
      show (1:ℕ) + 1 = 2 from rfl]
    rw [show D 1 = tBB D E 1 from (tBB_one D E).symm]
    field_simp
  · by_cases hlast : i = m
    · subst hlast
      have hne1 : tBB D E (i-1) ≠ 0 := ne_of_gt (hbb (i-1) (by omega) (by omega))
      have hne2 : tBB D E i ≠ 0 := ne_of_gt (hbb i (by omega) (le_refl _))
      have hDi : D i = tBB D E i + (E (i-1))^2 / tBB D E (i-1) := by
        have := tBB_succ D E (show 2 ≤ i by omega)
        linarith
      rw [tZfull_boundary_high D E R (show i < i + 1 by omega),
        tZfull_interior D E R hi1 (le_refl _),
        tZfull_interior D E R (show 1 ≤ i - 1 by omega) (show i - 1 ≤ i by omega),
        tZ_step D E R (show i - 1 < i by omega),
        show i - 1 + 1 = i from by omega,
        tZ_last, tG_succ D E R (show 2 ≤ i by omega), tC, hDi]
      field_simp
      ring
    · have hmid : 2 ≤ i ∧ i ≤ m - 1 := by omega
      have hne1 : tBB D E (i-1) ≠ 0 := ne_of_gt (hbb (i-1) (by omega) (by omega))
      have hne2 : tBB D E i ≠ 0 := ne_of_gt (hbb i (by omega) him)
      have hDi : D i = tBB D E i + (E (i-1))^2 / tBB D E (i-1) := by
        have := tBB_succ D E (show 2 ≤ i by omega)
        linarith
      rw [tZfull_interior D E R (show 1 ≤ i - 1 by omega) (show i - 1 ≤ m by omega),
        tZfull_interior D E R hi1 him,
        tZfull_interior D E R (show 1 ≤ i + 1 by omega) (show i + 1 ≤ m by omega),
        tZ_step D E R (show i - 1 < m by omega),
        show i - 1 + 1 = i from by omega,
        tZ_step D E R (show i < m by omega),
        tG_succ D E R (show 2 ≤ i by omega), tC, tC, hDi]
      field_simp
      ring

/-- Forward elimination applied to an arbitrary solution of the system:
    each unknown below the last satisfies the same recurrence the Thomas
    pass produces. -/
theorem thomas_forward (D E R : ℕ → ℚ) (m : ℕ) (hm : 2 ≤ m)
    (hD : ∀ i, 1 ≤ i → i ≤ m → D i = 2 * (E (i-1) + E i))
    (hE : ∀ i, i ≤ m → 0 < E i)
    (w : ℕ → ℚ) (hw0 : w 0 = 0)
    (hsys : ∀ i, 1 ≤ i → i ≤ m →
      E (i-1) * w (i-1) + D i * w i + E i * w (i+1) = R i) :
    ∀ i, 1 ≤ i → i ≤ m - 1 → w i = tG D E R i - tC D E i * w (i+1) := by
  have hbb := tBB_pos D E m hD hE
  intro i
  induction i with
  | zero => omega
  | succ j ih =>
    intro h1 h2
    by_cases hj : j = 0
    · subst hj
      have hrow := hsys 1 (by omega) (by omega)
      rw [hw0] at hrow
      have hne : tBB D E 1 ≠ 0 := ne_of_gt (hbb 1 (le_refl _) (by omega))
      rw [tG_one, tC, tBB_one] at *
      field_simp
      linear_combination hrow
    · have hj1 : 1 ≤ j := by omega
      have hih := ih hj1 (by omega)
      have hrow := hsys (j+1) (by omega) (by omega)
      simp only [Nat.add_sub_cancel] at hrow
      have hne1 : tBB D E j ≠ 0 := ne_of_gt (hbb j hj1 (by omega))
      have hne2 : tBB D E (j+1) ≠ 0 := ne_of_gt (hbb (j+1) (by omega) (by omega))
      have hDj : D (j+1) = tBB D E (j+1) + (E j)^2 / tBB D E j := by
        have := tBB_succ D E (show 2 ≤ j+1 by omega)
        simp only [Nat.add_sub_cancel] at this
        linarith
      rw [hih, tC, hDj] at hrow
      field_simp at hrow
      have key2 : (tBB D E (j+1) * w (j+1)) * tBB D E j =
          (R (j+1) - E j * tG D E R j - E (j+1) * w (j+2)) * tBB D E j := by
        linear_combination hrow
      have key : tBB D E (j+1) * w (j+1) =
          R (j+1) - E j * tG D E R j - E (j+1) * w (j+2) :=
        mul_right_cancel₀ hne1 key2
      rw [tG_succ D E R (show 2 ≤ j+1 by omega), tC]
      simp only [Nat.add_sub_cancel]
      have h22 : j + 1 + 1 = j + 2 := rfl
      rw [h22]
      field_simp
      linear_combination key

/-- The last unknown of any solution of the system agrees with the Thomas
    forward pass. -/
theorem thomas_last (D E R : ℕ → ℚ) (m : ℕ) (hm : 2 ≤ m)
    (hD : ∀ i, 1 ≤ i → i ≤ m → D i = 2 * (E (i-1) + E i))
    (hE : ∀ i, i ≤ m → 0 < E i)
    (w : ℕ → ℚ) (hw0 : w 0 = 0) (hwm1 : w (m+1) = 0)
    (hsys : ∀ i, 1 ≤ i → i ≤ m →
      E (i-1) * w (i-1) + D i * w i + E i * w (i+1) = R i) :
    w m = tG D E R m := by
  have hbb := tBB_pos D E m hD hE
  have hrow := hsys m (by omega) (le_refl _)
  rw [hwm1] at hrow
  have hfw := thomas_forward D E R m hm hD hE w hw0 hsys (m-1) (by omega) (le_refl _)
  have hm1 : m - 1 + 1 = m := by omega
  rw [hm1] at hfw
  have hne1 : tBB D E (m-1) ≠ 0 := ne_of_gt (hbb (m-1) (by omega) (by omega))
  have hne2 : tBB D E m ≠ 0 := ne_of_gt (hbb m (by omega) (le_refl _))
  have hDm : D m = tBB D E m + (E (m-1))^2 / tBB D E (m-1) := by
    have := tBB_succ D E (show 2 ≤ m by omega)
    linarith
  rw [hfw, tC, hDm] at hrow
  field_simp at hrow
  have key2 : (tBB D E m * w m) * tBB D E (m-1) =
      (R m - E (m-1) * tG D E R (m-1)) * tBB D E (m-1) := by
    linear_combination hrow
  have key : tBB D E m * w m = R m - E (m-1) * tG D E R (m-1) :=
    mul_right_cancel₀ hne1 key2
  rw [tG_succ D E R (show 2 ≤ m by omega)]
  field_simp
  linear_combination key

/-- Any solution of the system coincides with the Thomas output on every
    interior unknown: the two tridiagonal-solve strategies agree. -/
theorem thomas_unique (D E R : ℕ → ℚ) (m : ℕ) (hm : 2 ≤ m)
    (hD : ∀ i, 1 ≤ i → i ≤ m → D i = 2 * (E (i-1) + E i))
    (hE : ∀ i, i ≤ m → 0 < E i)
    (w : ℕ → ℚ) (hw0 : w 0 = 0) (hwm1 : w (m+1) = 0)
    (hsys : ∀ i, 1 ≤ i → i ≤ m →
      E (i-1) * w (i-1) + D i * w i + E i * w (i+1) = R i) :
    ∀ i, 1 ≤ i → i ≤ m → w i = tZ D E R m i := by
  have hlast : w m = tG D E R m := thomas_last D E R m hm hD hE w hw0 hwm1 hsys
  have hfw := thomas_forward D E R m hm hD hE w hw0 hsys
  have key : ∀ d i, 1 ≤ i → i ≤ m → m - i = d → w i = tZ D E R m i := by
    intro d
    induction d with
    | zero =>
      intro i h1 h2 hd
      have : i = m := by omega
      subst this
      rw [tZ_last]
      exact hlast
    | succ d ih =>
      intro i h1 h2 hd
      have him : i < m := by omega
      rw [tZ_step D E R him, hfw i h1 (by omega),
        ih (i+1) (by omega) (by omega) (by omega)]
  intro i h1 h2
  exact key (m - i) i h1 h2 rfl


theorem splineY2_eq_tZfull (args vals : ℕ → ℚ) {n : ℕ} (hn : n ≠ 3) (j : ℕ) :
    splineY2 args vals n j = tZfull (sD args) (sE args) (sR args vals) (n-2) j := by
  simp [splineY2, tZfull, hn]

theorem sD_eq (args : ℕ → ℚ) {i : ℕ} (hi : 1 ≤ i) :
    sD args i = 2 * (sE args (i-1) + sE args i) := by
  simp only [sD, sE]
  have : i - 1 + 1 = i := by omega
  rw [this]
  ring

theorem sE_pos (args : ℕ → ℚ) {n : ℕ} (hasc : AscendingArgs args n) {i : ℕ}
    (hi : i < n - 1) : 0 < sE args i := by
  simp only [sE]
  have := hasc i hi
  linarith

/-- The Thomas output of `setupSpline` satisfies the spec's tridiagonal
    system (so the modelled TMV path has at least this solution). -/
theorem splineY2_solves (args vals : ℕ → ℚ) (n : ℕ) (hn : 4 ≤ n)
    (hasc : AscendingArgs args n) :
    SplineSystem args vals n (splineY2 args vals n) := by
  have hn3 : n ≠ 3 := by omega
  have hm : 2 ≤ n - 2 := by omega
  have hD : ∀ i, 1 ≤ i → i ≤ n - 2 →
      sD args i = 2 * (sE args (i-1) + sE args i) := fun i h1 _ => sD_eq args h1
  have hE : ∀ i, i ≤ n - 2 → 0 < sE args i := fun i h => sE_pos args hasc (by omega)
  refine ⟨?_, ?_, ?_⟩
  · rw [splineY2_eq_tZfull args vals hn3, tZfull_boundary_low]
  · rw [splineY2_eq_tZfull args vals hn3, tZfull_boundary_high]
    omega
  · intro i h1 h2
    have hrow := thomas_solves (sD args) (sE args) (sR args vals) (n-2) hm hD hE i h1 h2
    rw [splineY2_eq_tZfull args vals hn3, splineY2_eq_tZfull args vals hn3,
      splineY2_eq_tZfull args vals hn3]
    have hE1 : sE args (i-1) = args i - args (i-1) := by
      simp only [sE]
      have h : i - 1 + 1 = i := by omega
      rw [h]
    rw [hE1] at hrow
    simp only [sD, sE, sR] at hrow
    linarith [hrow]

/-- Any solution of the spec's tridiagonal system agrees everywhere with the
    Thomas output of `setupSpline`: the two solve strategies are equivalent. -/
theorem splineSystem_unique (args vals : ℕ → ℚ) (n : ℕ) (hn : 4 ≤ n)
    (hasc : AscendingArgs args n) (z : ℕ → ℚ)
    (hz : SplineSystem args vals n z) :
    ∀ i, i < n → z i = splineY2 args vals n i := by
  have hn3 : n ≠ 3 := by omega
  have hm : 2 ≤ n - 2 := by omega
  have hD : ∀ i, 1 ≤ i → i ≤ n - 2 →
      sD args i = 2 * (sE args (i-1) + sE args i) := fun i h1 _ => sD_eq args h1
  have hE : ∀ i, i ≤ n - 2 → 0 < sE args i := fun i h => sE_pos args hasc (by omega)
  obtain ⟨hz0, hzn, hrows⟩ := hz
  have hzm1 : z (n - 2 + 1) = 0 := by
    have : n - 2 + 1 = n - 1 := by omega
    rw [this]
    exact hzn
  have hsys : ∀ i, 1 ≤ i → i ≤ n - 2 →
      sE args (i-1) * z (i-1) + sD args i * z i + sE args i * z (i+1) =
        sR args vals i := by
    intro i h1 h2
    have := hrows i h1 h2
    have hE1 : sE args (i-1) = args i - args (i-1) := by
      simp only [sE]
      have h : i - 1 + 1 = i := by omega
      rw [h]
    rw [hE1]
    simp only [sD, sE, sR]
    linarith [this]
  have huniq := thomas_unique (sD args) (sE args) (sR args vals) (n-2) hm hD hE
    z hz0 hzm1 hsys
  intro i hi
  by_cases h0 : i = 0
  · subst h0
    rw [hz0, splineY2_eq_tZfull args vals hn3, tZfull_boundary_low]
  · by_cases hlast : i = n - 1
    · subst hlast
      rw [hzn, splineY2_eq_tZfull args vals hn3, tZfull_boundary_high]
      omega
    · have h1 : 1 ≤ i := by omega
      have h2 : i ≤ n - 2 := by omega
      rw [huniq i h1 h2, splineY2_eq_tZfull args vals hn3,
        tZfull_interior _ _ _ h1 h2]

theorem tG_zero {D E R : ℕ → ℚ} {m : ℕ} (hR : ∀ i, 1 ≤ i → i ≤ m → R i = 0) :
    ∀ i, i ≤ m → tG D E R i = 0 := by
  intro i
  induction i with
  | zero => intro _; rfl
  | succ j ih =>
    intro hj
    by_cases h0 : j = 0
    · subst h0
      rw [tG_one, hR 1 (le_refl _) hj, zero_div]
    · have h2 : 2 ≤ j + 1 := by omega
      rw [tG_succ D E R h2, Nat.add_sub_cancel, ih (by omega),
        hR (j+1) (by omega) hj]
      simp

theorem tZ_zero {D E R : ℕ → ℚ} {m : ℕ} (hR : ∀ i, 1 ≤ i → i ≤ m → R i = 0) :
    ∀ i, tZ D E R m i = 0 := by
  have hg := tG_zero (D := D) (E := E) hR
  intro i
  by_cases him : m ≤ i
  · rw [tZ]
    simp [him, hg m (le_refl _)]
  · have key : ∀ d i, m - i = d → i < m → tZ D E R m i = 0 := by
      intro d
      induction d with
      | zero => intro i hd hi; omega
      | succ d ih =>
        intro i hd hi
        rw [tZ_step D E R hi, hg i (by omega)]
        by_cases h2 : i + 1 < m
        · rw [ih (i+1) (by omega) h2]
          ring
        · have : i + 1 = m := by omega
          rw [this, tZ_last, hg m (le_refl _)]
          ring
    exact key (m - i) i rfl (by omega)

/-- The spline right-hand side vanishes on exactly-linear data. -/
theorem sR_linear {args vals : ℕ → ℚ} {n : ℕ} (hasc : AscendingArgs args n)
    {mq c : ℚ} (hlin : ∀ k, k < n → vals k = mq * args k + c) :
    ∀ i, 1 ≤ i → i ≤ n - 2 → sR args vals i = 0 := by
  intro i h1 h2
  have hlo := hasc (i-1) (by omega)
  have hhi := hasc i (by omega)
  have hi1 : i - 1 + 1 = i := by omega
  rw [hi1] at hlo
  have hne1 : args i - args (i-1) ≠ 0 := sub_ne_zero.mpr (ne_of_gt hlo)
  have hne2 : args (i+1) - args i ≠ 0 := sub_ne_zero.mpr (ne_of_gt hhi)
  rw [sR, hlin (i+1) (by omega), hlin i (by omega), hlin (i-1) (by omega)]
  field_simp
  ring

/-- All second-derivative coefficients computed by `setupSpline` vanish on
    exactly-linear data (any table size, both the `n = 3` closed form and the
    Thomas path). -/
theorem splineY2_linear {args vals : ℕ → ℚ} {n : ℕ} (hasc : AscendingArgs args n)
    {mq c : ℚ} (hlin : ∀ k, k < n → vals k = mq * args k + c) :
    ∀ i, splineY2 args vals n i = 0 := by
  intro i
  by_cases hn3 : n = 3
  · subst hn3
    have h01 := hasc 0 (by omega)
    have h12 := hasc 1 (by omega)
    have hne1 : args 1 - args 0 ≠ 0 := sub_ne_zero.mpr (ne_of_gt h01)
    have hne2 : args 2 - args 1 ≠ 0 := sub_ne_zero.mpr (ne_of_gt h12)
    simp only [splineY2]
    rw [if_pos trivial]
    by_cases hi1 : i = 1
    · rw [if_pos hi1, hlin 2 (by omega), hlin 1 (by omega), hlin 0 (by omega)]
      have hq1 : (mq * args 2 + c - (mq * args 1 + c)) / (args 2 - args 1) = mq := by
        field_simp
        ring
      have hq2 : (mq * args 1 + c - (mq * args 0 + c)) / (args 1 - args 0) = mq := by
        field_simp
        ring
      rw [hq1, hq2]
      simp
    · rw [if_neg hi1]
  · rw [splineY2_eq_tZfull args vals hn3]
    simp only [tZfull]
    split_ifs with h
    · exact tZ_zero (sR_linear hasc hlin) i
    · rfl

namespace Table

/-- On exactly-linear data the spline evaluation formula returns the exact
    line, for every bracket index in range (the cubic correction term
    carries the vanishing second derivatives). -/
theorem splineInterpolate_linear {t : Table} (hasc : t.av.Ascending)
    {mq c : ℚ} (hlin : ∀ k, k < t.n → t.vals k = mq * t.args k + c)
    {i : ℕ} (h1 : 1 ≤ i) (h2 : i ≤ t.n - 1) (a : ℚ) :
    t.splineInterpolate a i = mq * a + c := by
  have hasc' : AscendingArgs t.args t.n := hasc
  have hy2 : ∀ j, t.y2 j = 0 := splineY2_linear hasc' hlin
  have hlt : t.args (i-1) < t.args i := by
    rw [args_def]
    exact ArgVec.vec_lt_vec hasc (show i - 1 < i by omega) (by rw [n_def] at h2; exact h2)
  have hne : t.args i - t.args (i-1) ≠ 0 := sub_ne_zero.mpr (ne_of_gt hlt)
  simp only [splineInterpolate]
  rw [hy2 (i-1), hy2 i, hlin (i-1) (by rw [n_def] at h2 ⊢; omega),
    hlin i (by rw [n_def] at h2 ⊢; omega)]
  field_simp
  ring

/-- Full spline-table lookup on exactly-linear data returns the exact line
    for every in-range query and valid cursor. -/
theorem lookup_spline_linear {t : Table} (hasc : t.av.Ascending) (hn : 2 ≤ t.n)
    (hty : t.ity = .spline) {s : ℕ} (hs : t.av.ValidCursor s)
    {mq c : ℚ} (hlin : ∀ k, k < t.n → t.vals k = mq * t.args k + c)
    {a : ℚ} (hf : t.argMin ≤ a) (hb : a ≤ t.argMax) :
    (t.lookup s a).1 = mq * a + c := by
  have hn' : 2 ≤ t.av.n := by rw [n_def] at hn; exact hn
  obtain ⟨_, _, hbr, _⟩ := ArgVec.upperIndex_spec hasc hn' hs a
  have hbk := hbr hf hb
  simp only [lookup, interpolate, hty]
  exact splineInterpolate_linear hasc hlin hbk.1 (by rw [n_def]; exact hbk.2.1) a

end Table

/-- For every query — in range or not — `upperIndex` returns an index in
    `[1, n-1]`. -/
theorem ArgVec.upperIndex_range {v : ArgVec} (hasc : v.Ascending) (hn : 2 ≤ v.n)
    {last : ℕ} (hc : v.ValidCursor last) (a : ℚ) :
    1 ≤ (v.upperIndex last a).1 ∧ (v.upperIndex last a).1 ≤ v.n - 1 := by
  obtain ⟨h1, h2, h3, _⟩ := ArgVec.upperIndex_spec hasc hn hc a
  by_cases hf : a < v.front
  · rw [h1 hf]
    exact ⟨le_refl _, by omega⟩
  · by_cases hb : v.back < a
    · rw [h2 hb hf]
      exact ⟨by omega, le_refl _⟩
    · obtain ⟨x1, x2, _, _⟩ := h3 (not_lt.mp hf) (not_lt.mp hb)
      exact ⟨x1, x2⟩

/-- Row-major flat index bound for a 2D grid access. -/
theorem flat_index_lt {x' y' nx ny : ℕ} (hx : x' ≤ nx - 1) (hy : y' ≤ ny - 1)
    (hnx : 1 ≤ nx) (hny : 1 ≤ ny) : x' * ny + y' < nx * ny := by
  have h1 : x' * ny ≤ (nx - 1) * ny := Nat.mul_le_mul_right ny hx
  have h2 : (nx - 1) * ny + ny = nx * ny := by
    cases nx with
    | zero => omega
    | succ m => simp [Nat.succ_sub_one, Nat.succ_mul]
  omega

theorem uVec_da : uVec.da = 1 := by
  norm_num [ArgVec.da, ArgVec.front, ArgVec.back, uVec]

theorem uVec_equalSpaced : uVec.equalSpaced = true := by
  simp only [ArgVec.equalSpaced, uVec_da]
  rw [List.all_eq_true]
  intro i hi
  rw [List.mem_range] at hi
  rw [decide_eq_true_eq]
  have hi4 : i < 4 := hi
  clear hi
  interval_cases i <;> norm_num [uVec]

theorem uVec_eqSpacedIndex_one : (uVec.eqSpacedIndex 1).toNat = 1 := by
  have hpre : uVec.preNudgeIndex 1 = 1 := by
    simp only [ArgVec.preNudgeIndex, uVec_da]
    norm_num [ArgVec.front, uVec]
  rw [ArgVec.eqSpacedIndex, hpre]
  decide

/-- C1: for every axis of `N ≥ 2` strictly ascending samples and every query
    `a`: an in-range query gets an index `i` with `1 ≤ i ≤ N-1` and
    `args[i-1] ≤ a ≤ args[i]`; a query below range gets 1 and above range
    gets `N-1`.  The bracket contract holds on the equal-spaced path and on
    the cursor path separately, for every cursor state satisfying the
    invariant (which is preserved by every query, hence holds of every
    reachable state). -/
theorem c1_upperIndex_bracket_contract (v : ArgVec) (hasc : v.Ascending)
    (hn : 2 ≤ v.n) (last : ℕ) (hc : v.ValidCursor last) (a : ℚ) :
    UpperIndexContract v last a := by
  obtain ⟨h1, h2, h3, h4⟩ := ArgVec.upperIndex_spec hasc hn hc a
  have hfb := ArgVec.front_lt_back hasc hn
  refine ⟨fun h => by rw [h1 h], fun h => ?_, h3, ?_, ?_, h4⟩
  · have hnf : ¬ a < v.front := not_lt.mpr (le_of_lt (lt_trans hfb h))
    rw [h2 h hnf]
  · intro hf hb
    exact (ArgVec.eqSpacedIndex_spec hasc hn hf hb).1
  · intro hf hb
    exact (ArgVec.cursorIndex_spec hasc hn hc hf hb).1

theorem c1_upperIndex_bracket_contract_witness :
    (wVec.Ascending ∧ 2 ≤ wVec.n ∧ wVec.ValidCursor 2) ∧
    UpperIndexContract wVec 2 2 :=
  ⟨⟨by decide, by decide, by decide⟩,
   c1_upperIndex_bracket_contract wVec (by decide) (by decide) 2 (by decide) 2⟩

/-- C2: the range-checked accessor `Table::operator()` returns exactly 0 for
    queries outside `[argMin, argMax]`, agrees with the always-interpolating
    `lookup` inside, and at `argMin` itself returns `vals[0]` (for every
    rule), not 0. -/
theorem c2_ranged_accessor_zero_outside (t : Table) (hasc : t.av.Ascending)
    (hn : 2 ≤ t.n) (s : ℕ) (hs : t.av.ValidCursor s) :
    (∀ a, a < t.argMin ∨ t.argMax < a → (t.callOp s a).1 = 0) ∧
    (∀ a, t.argMin ≤ a → a ≤ t.argMax → (t.callOp s a).1 = (t.lookup s a).1) ∧
    (t.callOp s t.argMin).1 = t.vals 0 := by
  have hn' : 2 ≤ t.av.n := hn
  have hfb : t.argMin ≤ t.argMax := le_of_lt (ArgVec.front_lt_back hasc hn')
  refine ⟨?_, ?_, ?_⟩
  · intro a h
    simp [Table.callOp, h]
  · intro a h1 h2
    have h : ¬ (a < t.argMin ∨ t.argMax < a) := by
      push_neg
      exact ⟨h1, h2⟩
    simp [Table.callOp, h]
  · have h : ¬ (t.argMin < t.argMin ∨ t.argMax < t.argMin) := by
      push_neg
      exact ⟨le_refl _, hfb⟩
    simp only [Table.callOp, if_neg h]
    have he : t.argMin = t.args 0 := rfl
    rw [he]
    exact Table.lookup_grid hasc hn hs (by omega)

theorem c2_ranged_accessor_zero_outside_witness :
    ((gTab Interpolant.ceil).av.Ascending ∧ 2 ≤ (gTab Interpolant.ceil).n ∧
      (gTab Interpolant.ceil).av.ValidCursor 1) ∧
    ((∀ a, a < (gTab Interpolant.ceil).argMin ∨ (gTab Interpolant.ceil).argMax < a →
        ((gTab Interpolant.ceil).callOp 1 a).1 = 0) ∧
     (∀ a, (gTab Interpolant.ceil).argMin ≤ a → a ≤ (gTab Interpolant.ceil).argMax →
        ((gTab Interpolant.ceil).callOp 1 a).1 = ((gTab Interpolant.ceil).lookup 1 a).1) ∧
     ((gTab Interpolant.ceil).callOp 1 (gTab Interpolant.ceil).argMin).1 =
        (gTab Interpolant.ceil).vals 0) :=
  ⟨⟨by decide, by decide, by decide⟩,
   c2_ranged_accessor_zero_outside (gTab Interpolant.ceil) (by decide) (by decide) 1 (by decide)⟩

/-- C3: looking up a 1D table exactly at sample point `args[k]` returns
    `vals[k]`, under the linear, floor, ceil and nearest rules (for floor
    and ceil this rests on the exact-equality tie-break that moves the
    bracket to the grid point's own value). -/
theorem c3_sample_point_exact (t : Table) (hasc : t.av.Ascending) (hn : 2 ≤ t.n)
    (hty : t.ity = Interpolant.linear ∨ t.ity = Interpolant.floor ∨
      t.ity = Interpolant.ceil ∨ t.ity = Interpolant.nearest)
    (s : ℕ) (hs : t.av.ValidCursor s) (k : ℕ) (hk : k < t.n) :
    (t.lookup s (t.args k)).1 = t.vals k :=
  Table.lookup_grid hasc hn hs hk

theorem c3_sample_point_exact_witness :
    ((gTab Interpolant.floor).av.Ascending ∧ 2 ≤ (gTab Interpolant.floor).n ∧
      (gTab Interpolant.floor).ity = Interpolant.floor ∧
      (gTab Interpolant.ceil).ity = Interpolant.ceil) ∧
    ((gTab Interpolant.floor).lookup 1 1).1 = 20 ∧
    ((gTab Interpolant.ceil).lookup 1 1).1 = 20 :=
  ⟨⟨by decide, by decide, rfl, rfl⟩,
   c3_sample_point_exact (gTab Interpolant.floor) (by decide) (by decide)
     (Or.inr (Or.inl rfl)) 1 (by decide) 1 (by decide),
   c3_sample_point_exact (gTab Interpolant.ceil) (by decide) (by decide)
     (Or.inr (Or.inr (Or.inl rfl))) 1 (by decide) 1 (by decide)⟩

/-- C4: on a 2D table built with the floor, ceil or nearest rule, every
    `gradient` call raises the capability error (and hence every
    `gradientMany` with at least one query aborts with it); no value is ever
    returned. -/
theorem c4_gradient_capability_error (t : Table2D)
    (hty : t.ity = Interpolant2D.floor ∨ t.ity = Interpolant2D.ceil ∨
      t.ity = Interpolant2D.nearest) :
    (∀ sx sy x y, ∃ e, t.gradient sx sy x y = Except.error e) ∧
    (∀ sx sy qs, qs ≠ [] → ∃ e, t.gradientMany sx sy qs = Except.error e) := by
  have herr : ∀ sx sy x y, ∃ e, t.gradient sx sy x y = Except.error e := by
    intro sx sy x y
    rcases hty with h | h | h
    · exact ⟨"gradient not implemented for floor interp", by simp [Table2D.gradient, h]⟩
    · exact ⟨"gradient not implemented for ceil interp", by simp [Table2D.gradient, h]⟩
    · exact ⟨"gradient not implemented for nearest interp", by simp [Table2D.gradient, h]⟩
  refine ⟨herr, ?_⟩
  intro sx sy qs hqs
  cases qs with
  | nil => exact absurd rfl hqs
  | cons q rest =>
    obtain ⟨x, y⟩ := q
    obtain ⟨e, he⟩ := herr sx sy x y
    exact ⟨e, by simp [Table2D.gradientMany, he]⟩

theorem c4_gradient_capability_error_witness :
    ((t2w Interpolant2D.floor).ity = Interpolant2D.floor) ∧
    (∀ sx sy x y, ∃ e,
      (t2w Interpolant2D.floor).gradient sx sy x y = Except.error e) ∧
    (∀ sx sy qs, qs ≠ [] → ∃ e,
      (t2w Interpolant2D.floor).gradientMany sx sy qs = Except.error e) :=
  ⟨rfl,
   (c4_gradient_capability_error (t2w Interpolant2D.floor) (Or.inl rfl)).1,
   (c4_gradient_capability_error (t2w Interpolant2D.floor) (Or.inl rfl)).2⟩

/-- C5: for `N ≥ 4` strictly ascending arguments, the Thomas pass of
    `setupSpline` satisfies the tridiagonal system the TMV strategy solves
    (diagonal `2*(args[i+1]-args[i-1])`, off-diagonals `args[i+1]-args[i]`,
    the stated right-hand side), and every solution of that system equals the
    Thomas output — over exact arithmetic the two strategies produce the same
    second-derivative coefficients. -/
theorem c5_tridiagonal_strategies_agree (args vals : ℕ → ℚ) (n : ℕ)
    (hn : 4 ≤ n) (hasc : AscendingArgs args n) :
    SplineSystem args vals n (splineY2 args vals n) ∧
    (∀ z, SplineSystem args vals n z → ∀ i, i < n → z i = splineY2 args vals n i) :=
  ⟨splineY2_solves args vals n hn hasc,
   fun z hz => splineSystem_unique args vals n hn hasc z hz⟩

theorem c5_tridiagonal_strategies_agree_witness :
    ((4:ℕ) ≤ 4 ∧ AscendingArgs wVec.vec 4) ∧
    (SplineSystem wVec.vec sVals 4 (splineY2 wVec.vec sVals 4) ∧
     (∀ z, SplineSystem wVec.vec sVals 4 z → ∀ i, i < 4 →
        z i = splineY2 wVec.vec sVals 4 i)) :=
  ⟨⟨by decide, by decide⟩,
   c5_tridiagonal_strategies_agree wVec.vec sVals 4 (by decide) (by decide)⟩

/-- C6 counterexample: the uniform axis `[0,1,2,3]` passes the 1% detection,
    the cursor state 3 is reachable on the cursor path (query 3 from the
    initial cursor 1 drives it there), and then at the interior grid point 1
    the equal-spaced path answers bracket index 1 while the cursor path
    answers 2 — the two paths are not bit-for-bit identical. -/
theorem c6_counterexample :
    uVec.equalSpaced = true ∧
    (uVec.cursorIndex 1 3).2 = 3 ∧
    (uVec.eqSpacedIndex 1).toNat = 1 ∧
    (uVec.cursorIndex 3 1).1 = 2 ∧
    (1 : ℕ) ≠ 2 :=
  ⟨uVec_equalSpaced, by decide, uVec_eqSpacedIndex_one, by decide, by decide⟩

/-- C6 amended: on an axis passing the uniform-spacing detection, the
    equal-spaced path and the cursor path return identical bracket indices
    for every in-range query that does not fall exactly on an interior grid
    point `args[1..N-2]`, for every cursor state satisfying the invariant
    (at an interior grid point each path may return either of the two valid
    adjacent brackets, and they can differ by one). -/
theorem c6_amended_paths_agree (v : ArgVec) (hasc : v.Ascending) (hn : 2 ≤ v.n)
    (he : v.equalSpaced = true) (last : ℕ) (hc : v.ValidCursor last) (a : ℚ)
    (hf : v.front ≤ a) (hb : a ≤ v.back)
    (hng : ∀ k, 1 ≤ k → k ≤ v.n - 2 → a ≠ v.vec k) :
    (v.eqSpacedIndex a).toNat = (v.cursorIndex last a).1 := by
  have h1 := (ArgVec.eqSpacedIndex_spec hasc hn hf hb).1
  have h2 := (ArgVec.cursorIndex_spec hasc hn hc hf hb).1
  obtain h | ⟨hij, hgrid⟩ | ⟨hij, hgrid⟩ := ArgVec.bracket_unique hasc h1 h2
  · exact h
  · exfalso
    have hle : (v.cursorIndex last a).1 ≤ v.n - 1 := h2.2.1
    exact hng _ h1.1 (by omega) hgrid
  · exfalso
    have hle : (v.eqSpacedIndex a).toNat ≤ v.n - 1 := h1.2.1
    exact hng _ h2.1 (by omega) hgrid

theorem uVec_front_le_q : uVec.front ≤ 5/2 := by
  norm_num [ArgVec.front, uVec]

theorem uVec_le_back_q : (5/2 : ℚ) ≤ uVec.back := by
  norm_num [ArgVec.back, uVec]

theorem uVec_offgrid : ∀ k, 1 ≤ k → k ≤ uVec.n - 2 → (5/2 : ℚ) ≠ uVec.vec k := by
  intro k h1 h2
  have h2' : k ≤ 2 := h2
  clear h2
  interval_cases k <;> norm_num [uVec]

theorem c6_amended_paths_agree_witness :
    (uVec.Ascending ∧ 2 ≤ uVec.n ∧ uVec.equalSpaced = true ∧ uVec.ValidCursor 3 ∧
      uVec.front ≤ 5/2 ∧ (5/2 : ℚ) ≤ uVec.back ∧
      (∀ k, 1 ≤ k → k ≤ uVec.n - 2 → (5/2 : ℚ) ≠ uVec.vec k)) ∧
    (uVec.eqSpacedIndex (5/2)).toNat = (uVec.cursorIndex 3 (5/2)).1 :=
  ⟨⟨by decide, by decide, uVec_equalSpaced, by decide, uVec_front_le_q, uVec_le_back_q,
    uVec_offgrid⟩,
   c6_amended_paths_agree uVec (by decide) (by decide) uVec_equalSpaced 3 (by decide)
     (5/2) uVec_front_le_q uVec_le_back_q uVec_offgrid⟩

/-- C7: the mutable search cursor is not part of the table's logical value:
    for every rule and every query, the lookup value is the same under every
    cursor state satisfying the invariant — in particular resetting the
    cursor to its neutral value 1 never changes any subsequent lookup — and
    the invariant is preserved, so the property propagates along any query
    sequence. -/
theorem c7_cursor_state_unobservable (t : Table) (hasc : t.av.Ascending)
    (hn : 2 ≤ t.n) (s s' : ℕ) (hs : t.av.ValidCursor s)
    (hs' : t.av.ValidCursor s') :
    (∀ a, (t.lookup s a).1 = (t.lookup s' a).1) ∧
    (∀ a, (t.lookup s a).1 = (t.lookup 1 a).1) ∧
    (∀ a, t.av.ValidCursor (t.lookup s a).2) := by
  have hn' : 2 ≤ t.av.n := hn
  have h1 : t.av.ValidCursor 1 := ⟨le_refl _, by omega⟩
  refine ⟨fun a => Table.lookup_cursor_independent hasc hn hs hs' a,
          fun a => Table.lookup_cursor_independent hasc hn hs h1 a,
          fun a => ?_⟩
  simp only [Table.lookup]
  exact (ArgVec.upperIndex_spec hasc hn' hs a).2.2.2

theorem c7_cursor_state_unobservable_witness :
    ((wTab Interpolant.linear).av.Ascending ∧ 2 ≤ (wTab Interpolant.linear).n ∧
      (wTab Interpolant.linear).av.ValidCursor 3 ∧
      (wTab Interpolant.linear).av.ValidCursor 1) ∧
    ((∀ a, ((wTab Interpolant.linear).lookup 3 a).1 =
        ((wTab Interpolant.linear).lookup 1 a).1) ∧
     (∀ a, ((wTab Interpolant.linear).lookup 3 a).1 =
        ((wTab Interpolant.linear).lookup 1 a).1) ∧
     (∀ a, (wTab Interpolant.linear).av.ValidCursor
        (((wTab Interpolant.linear).lookup 3 a).2))) :=
  ⟨⟨by decide, by decide, by decide, by decide⟩,
   c7_cursor_state_unobservable (wTab Interpolant.linear) (by decide) (by decide)
     3 1 (by decide) (by decide)⟩

/-- C8: for a spline table over equally-spaced arguments whose values lie
    exactly on the line `vals = mq * args + c`, every second-derivative
    coefficient computed by `setupSpline` is exactly zero, and both the raw
    spline evaluation (for every bracket in range) and the full lookup (for
    every in-range query and valid cursor) return exactly `mq * a + c`. -/
theorem c8_spline_exact_on_linear_data (t : Table) (hn : 2 ≤ t.n)
    (hty : t.ity = Interpolant.spline) (x0 d mq c : ℚ) (hd : 0 < d)
    (hargs : ∀ k, k < t.n → t.args k = x0 + k * d)
    (hlin : ∀ k, k < t.n → t.vals k = mq * t.args k + c) :
    (∀ k, t.y2 k = 0) ∧
    (∀ a i, 1 ≤ i → i ≤ t.n - 1 → t.splineInterpolate a i = mq * a + c) ∧
    (∀ s a, t.av.ValidCursor s → t.argMin ≤ a → a ≤ t.argMax →
      (t.lookup s a).1 = mq * a + c) := by
  have hasc : t.av.Ascending := by
    intro k hk
    have hnn : t.n = t.av.n := rfl
    have e1 : t.av.vec k = x0 + k * d := hargs k (by omega)
    have e2 : t.av.vec (k+1) = x0 + (k+1 : ℕ) * d := hargs (k+1) (by omega)
    rw [e1, e2]
    push_cast
    have hd' : ((k:ℚ) + 1) * d = (k:ℚ) * d + d := by ring
    rw [hd']
    linarith
  have hasc' : AscendingArgs t.args t.n := hasc
  refine ⟨fun k => splineY2_linear hasc' hlin k, ?_, ?_⟩
  · intro a i h1 h2
    exact Table.splineInterpolate_linear hasc hlin h1 h2 a
  · intro s a hs hf hb
    exact Table.lookup_spline_linear hasc hn hty hs hlin hf hb

theorem linTab_args : ∀ k, k < linTab.n → linTab.args k = 0 + k * 1 := by
  intro k hk
  have hk' : k < 4 := hk
  clear hk
  interval_cases k <;> norm_num [linTab, uVec, Table.args]

theorem linTab_vals : ∀ k, k < linTab.n → linTab.vals k = 2 * linTab.args k + 5 := by
  intro k hk
  have hk' : k < 4 := hk
  clear hk
  interval_cases k <;> norm_num [linTab, linVals, uVec, Table.args]

theorem c8_spline_exact_on_linear_data_witness :
    (2 ≤ linTab.n ∧ linTab.ity = Interpolant.spline ∧ (0:ℚ) < 1 ∧
      (∀ k, k < linTab.n → linTab.args k = 0 + k * 1) ∧
      (∀ k, k < linTab.n → linTab.vals k = 2 * linTab.args k + 5)) ∧
    ((∀ k, linTab.y2 k = 0) ∧
     (∀ a i, 1 ≤ i → i ≤ linTab.n - 1 → linTab.splineInterpolate a i = 2 * a + 5) ∧
     (∀ s a, linTab.av.ValidCursor s → linTab.argMin ≤ a → a ≤ linTab.argMax →
        (linTab.lookup s a).1 = 2 * a + 5)) :=
  ⟨⟨by decide, rfl, by decide, linTab_args, linTab_vals⟩,
   c8_spline_exact_on_linear_data linTab (by decide) rfl 0 1 2 5 (by decide)
     linTab_args linTab_vals⟩

/-- C9: a bilinear 2D table evaluated exactly at any grid point `(k, l)`
    (each corner of each cell) returns the stored grid value
    `vals[k*Ny + l]`: the area weights degenerate to a single 1 and three 0s. -/
theorem c9_bilinear_corner_exact (t : Table2D) (hx : t.xav.Ascending)
    (hy : t.yav.Ascending) (hnx : 2 ≤ t.nx) (hny : 2 ≤ t.ny)
    (hty : t.ity = Interpolant2D.linear) (sx sy : ℕ)
    (hsx : t.xav.ValidCursor sx) (hsy : t.yav.ValidCursor sy)
    (k l : ℕ) (hk : k < t.nx) (hl : l < t.ny) :
    (t.lookup sx sy (t.xargs k) (t.yargs l)).1 = t.vals (k * t.ny + l) := by
  simp only [Table2D.lookup, hty]
  exact Table2D.linearInterp_corner hx hy hnx hny hsx hsy hk hl

theorem c9_bilinear_corner_exact_witness :
    ((t2w Interpolant2D.linear).xav.Ascending ∧
      2 ≤ (t2w Interpolant2D.linear).nx ∧ 2 ≤ (t2w Interpolant2D.linear).ny ∧
      (t2w Interpolant2D.linear).ity = Interpolant2D.linear ∧
      (t2w Interpolant2D.linear).xav.ValidCursor 1) ∧
    ((t2w Interpolant2D.linear).lookup 1 1 ((t2w Interpolant2D.linear).xargs 1)
        ((t2w Interpolant2D.linear).yargs 0)).1 =
      (t2w Interpolant2D.linear).vals (1 * (t2w Interpolant2D.linear).ny + 0) :=
  ⟨⟨by decide, by decide, by decide, rfl, by decide⟩,
   c9_bilinear_corner_exact (t2w Interpolant2D.linear) (by decide) (by decide)
     (by decide) (by decide) rfl 1 1 (by decide) (by decide) 1 0 (by decide) (by decide)⟩

/-- C10: the whole lookup pipeline is total and in-bounds: the equal-spaced
    path's nudge loops exit by their conditions (adding fuel changes nothing)
    with an index in `[1, n-1]`; the cursor path's binary searches run over
    non-empty sub-ranges and can return neither 0 nor n; and every
    value-array access of the 1D and 2D floor/ceil/nearest interpolators,
    tie-break adjustments included, stays inside the array. -/
theorem c10_pipeline_total_inbounds (v : ArgVec) (hasc : v.Ascending)
    (hn : 2 ≤ v.n) (last : ℕ) (hc : v.ValidCursor last) (a : ℚ) :
    TotalityContract v last a := by
  have hiU := ArgVec.upperIndex_range hasc hn hc a
  refine ⟨?_, hiU, ?_, ?_⟩
  · intro hf hb
    obtain ⟨hbr_eq, hstab⟩ := ArgVec.eqSpacedIndex_spec hasc hn hf hb
    obtain ⟨hbr_cur, _⟩ := ArgVec.cursorIndex_spec hasc hn hc hf hb
    have hlast2 : a < v.vec (last - 1) → 2 ≤ last := by
      intro hA
      by_contra h
      have hl1 : last = 1 := by
        obtain ⟨hc1, hc2⟩ := hc
        omega
      rw [hl1] at hA
      exact absurd hf (not_le.mpr (by simpa [ArgVec.front] using hA))
    refine ⟨hstab, ⟨hbr_eq.1, hbr_eq.2.1⟩, ⟨hbr_cur.1, hbr_cur.2.1⟩, hlast2, ?_, ?_⟩
    · intro hA hA1
      have h2l := hlast2 hA
      obtain ⟨hp0, hp1, hp2, hp3⟩ :=
        @ArgVec.upperBoundIdx_spec v a (last - 1) 0 (last - 1) (by omega)
      have hA1' : a < v.vec (last - 2) := not_le.mp hA1
      have hplt : v.upperBoundIdx a (last - 1) 0 (last - 1) < last - 1 := by
        rcases Nat.lt_or_ge (v.upperBoundIdx a (last - 1) 0 (last - 1)) (last - 1) with h | h
        · exact h
        · exact absurd hA1' (hp2 (last - 2) (by omega) (by omega))
      have hp1' : 1 ≤ v.upperBoundIdx a (last - 1) 0 (last - 1) := by
        by_contra h
        have h0 : v.upperBoundIdx a (last - 1) 0 (last - 1) = 0 := by omega
        have hlt := hp3 hplt
        rw [h0] at hlt
        exact absurd hf (not_le.mpr (by simpa [ArgVec.front] using hlt))
      exact ⟨by omega, hp1', by omega⟩
    · intro hA hB hB1
      have hlastn : last + 1 < v.n := by
        by_contra h
        have hle : last ≤ v.n - 1 := hc.2
        have hl : last = v.n - 1 := by omega
        rw [hl] at hB
        exact absurd hb (not_le.mpr (by simpa [ArgVec.back] using hB))
      obtain ⟨hp0, hp1, hp2, hp3⟩ :=
        @ArgVec.lowerBoundIdx_spec v a (v.n - (last+1)) (last+1) v.n (by omega)
      have hB1' : v.vec (last + 1) < a := not_le.mp hB1
      have hpn : v.lowerBoundIdx a (v.n - (last + 1)) (last + 1) v.n ≤ v.n - 1 := by
        by_contra h
        have hpe : v.lowerBoundIdx a (v.n - (last + 1)) (last + 1) v.n = v.n := by
          have := hp1 (by omega)
          omega
        have hlt := hp2 (v.n - 1) (by omega) (by omega)
        exact absurd hb (not_le.mpr (by simpa [ArgVec.back] using hlt))
      have hpl : last + 2 ≤ v.lowerBoundIdx a (v.n - (last + 1)) (last + 1) v.n := by
        by_contra h
        have hpe : v.lowerBoundIdx a (v.n - (last + 1)) (last + 1) v.n = last + 1 := by
          omega
        have hnl := hp3 (by omega)
        rw [hpe] at hnl
        exact hnl hB1'
      exact ⟨hlastn, hpl, hpn⟩
  · intro t ht
    have hle := hiU.2
    refine ⟨?_, ?_, ?_⟩
    · simp only [Table.floorIdx]
      split_ifs <;> omega
    · simp only [Table.ceilIdx]
      split_ifs <;> omega
    · simp only [Table.nearestIdx]
      split_ifs <;> omega
  · intro t2 sy y hxav hyasc hyn hsy
    have hjU := ArgVec.upperIndex_range hyasc hyn hsy y
    rw [hxav]
    have hnx : t2.nx = v.n := by rw [Table2D.nx_def, hxav]
    have hny2 : t2.ny = t2.yav.n := Table2D.ny_def t2
    refine ⟨?_, ?_, ?_⟩
    · simp only [Table2D.floorIdx2D]
      apply flat_index_lt
      · rw [hnx]
        split_ifs <;> omega
      · rw [hny2]
        split_ifs <;> omega
      · rw [hnx]; omega
      · rw [hny2]; omega
    · simp only [Table2D.ceilIdx2D]
      apply flat_index_lt
      · rw [hnx]
        split_ifs <;> omega
      · rw [hny2]
        split_ifs <;> omega
      · rw [hnx]; omega
      · rw [hny2]; omega
    · simp only [Table2D.nearestIdx2D]
      apply flat_index_lt
      · rw [hnx]
        split_ifs <;> omega
      · rw [hny2]
        split_ifs <;> omega
      · rw [hnx]; omega
      · rw [hny2]; omega

theorem c10_pipeline_total_inbounds_witness :
    (wVec.Ascending ∧ 2 ≤ wVec.n ∧ wVec.ValidCursor 2) ∧
    TotalityContract wVec 2 2 :=
  ⟨⟨by decide, by decide, by decide⟩,
   c10_pipeline_total_inbounds wVec (by decide) (by decide) 2 (by decide) 2⟩

end GalSim
